import Mathlib

/-!
Verification of the change-tracking / reversible-audit subsystem of the
env-builder repository: the audit-log engine (`AuditService`), the restore
resolver (`AuditPage.handleRestore` / `App.handleRestore`), the properties
text codec (`PropertiesFileService` / `DeploymentService`), and the
snapshot import path (`DuckDBService`).

Strings are embedded as `List Char` (abbreviated `Str`), written via
`"literal".data`; JavaScript `Date` values are embedded as abstract `Nat`
clock ticks supplied as extra parameters wherever the source calls
`new Date()` / `Date.now()`.  Optional (`field?:`) TypeScript fields are
embedded as `Option`.
-/

namespace EnvBuilder

/-- Character strings of the model, mirroring TypeScript `string`. -/
abbrev Str := List Char

/-- Approximation of the whitespace class removed by JavaScript
`String.prototype.trim` (ASCII whitespace). -/
def isWS (c : Char) : Bool :=
  c = ' ' || c = '\t' || c = '\n' || c = '\r' || c = '\x0b' || c = '\x0c'

/-- JavaScript `s.trim()`: strip leading and trailing whitespace. -/
def trimStr (s : Str) : Str :=
  ((s.dropWhile isWS).reverse.dropWhile isWS).reverse

/-- `Property` from `src/models/Property.ts`.  `lastModified` is an abstract
clock tick; the optional order fields mirror `environmentOrder?` /
`fileOrder?` / `lineOrder?`. -/
structure Property where
  id : Str
  environment : Str
  key : Str
  value : Str
  description : Option Str
  component : Str
  lastModified : Nat
  environmentOrder : Option Nat := none
  fileOrder : Option Nat := none
  lineOrder : Option Nat := none
deriving Repr, DecidableEq

/-- The `action` field of `AuditLog` from `src/models/AuditLog.ts`. -/
inductive AuditAction where
  | CREATE | UPDATE | DELETE | RESTORE | BATCH
deriving Repr, DecidableEq

/-- `AuditLog` from `src/models/AuditLog.ts` (the `tableName` field is the
constant `'properties'` and is omitted; `userId` never set by the engine). -/
structure AuditLog where
  id : Str
  timestamp : Nat
  action : AuditAction
  recordId : Str
  propertyKey : Str
  environment : Str
  component : Str
  oldValue : Option Str := none
  newValue : Option Str := none
  oldDescription : Option Str := none
  newDescription : Option Str := none
  changeDetails : Str
  sessionId : Str
deriving Repr, DecidableEq

/-- JavaScript truthiness fallback `a || b` for an optional string argument
(`undefined` and the empty string both fall through to the default). -/
def orTruthy (a : Option Str) (b : Str) : Str :=
  match a with
  | some s => if s = [] then b else s
  | none => b

/-- `AuditService.generateChangeDetails`: the auto-generated human-readable
description of a mutation. -/
def generateChangeDetails (action : AuditAction) (p : Property)
    (oldProperty : Option Property) : Str :=
  let envKey := p.environment ++ ".".data ++ p.key
  match action with
  | .CREATE =>
      "Created property '".data ++ envKey ++ "' in ".data ++ p.component ++
        " with value: '".data ++ p.value ++ "'".data
  | .UPDATE =>
      match oldProperty with
      | none => "Updated property '".data ++ envKey ++ "'".data
      | some o =>
          let changes : List Str :=
            (if o.value ≠ p.value then
              ["value: '".data ++ o.value ++ "' -> '".data ++ p.value ++ "'".data] else []) ++
            (if o.description ≠ p.description then
              ["description: '".data ++ orTruthy o.description "(empty)".data ++
               "' -> '".data ++ orTruthy p.description "(empty)".data ++ "'".data] else []) ++
            (if o.component ≠ p.component then
              ["component: '".data ++ o.component ++ "' -> '".data ++ p.component ++ "'".data] else [])
          "Updated property '".data ++ envKey ++ "': ".data ++
            (List.intercalate ", ".data changes)
  | .DELETE =>
      "Deleted property '".data ++ envKey ++ "' from ".data ++ p.component ++
        " (was: '".data ++ p.value ++ "')".data
  | .RESTORE =>
      "Restored property '".data ++ envKey ++ "' to previous state".data
  | .BATCH =>
      "BATCH operation on property '".data ++ envKey ++ "'".data

/-- `AuditService.createAuditLog`.  The generated id, the current time and the
session id are effect parameters (`generateId()`, `new Date()`, `sessionId`). -/
def createAuditLog (genId : Str) (now : Nat) (sess : Str)
    (action : AuditAction) (p : Property) (oldProperty : Option Property)
    (changeDetails : Option Str) : AuditLog :=
  let base : AuditLog :=
    { id := genId
      timestamp := now
      action := action
      recordId := p.id
      propertyKey := p.key
      environment := p.environment
      component := p.component
      changeDetails := orTruthy changeDetails (generateChangeDetails action p oldProperty)
      sessionId := sess }
  match action, oldProperty with
  | .UPDATE, some o =>
      { base with oldValue := some o.value, newValue := some p.value
                  oldDescription := o.description, newDescription := p.description }
  | .CREATE, _ =>
      { base with newValue := some p.value, newDescription := p.description }
  | .DELETE, _ =>
      { base with oldValue := some p.value, oldDescription := p.description }
  | _, _ => base

/-! ### Decimal numerals

`natToChars` embeds the decimal rendering JavaScript performs in template
strings and in `JSON.stringify` for the (non-negative integer) numbers this
system emits; `readDigits`/`parseNatTok` embed the corresponding numeral
parsing inside `JSON.parse`. -/

/-- Digit accumulator for `natToChars`; the first argument is fuel keeping
the recursion structural (any fuel above the value itself is enough). -/
def natToCharsAux : Nat → Nat → Str → Str
  | 0, _, acc => acc
  | fuel + 1, n, acc =>
      if n < 10 then Nat.digitChar n :: acc
      else natToCharsAux fuel (n / 10) (Nat.digitChar (n % 10) :: acc)

/-- Decimal digit characters of a natural number (JavaScript `${n}`). -/
def natToChars (n : Nat) : Str := natToCharsAux (n + 1) n []

/-- Consume a maximal run of decimal digits, accumulating their value. -/
def readDigits : Str → Nat → Nat × Str
  | [], acc => (acc, [])
  | c :: cs, acc =>
      if c.isDigit then readDigits cs (acc * 10 + (c.toNat - 48)) else (acc, c :: cs)

/-- Parse a decimal numeral (requires at least one leading digit). -/
def parseNatTok (s : Str) : Option (Nat × Str) :=
  match s with
  | c :: cs => if c.isDigit then some (readDigits (c :: cs) 0) else none
  | [] => none

/-- A string that does not begin with a decimal digit (numeral boundary). -/
def noDigitHead (s : Str) : Bool :=
  match s with
  | [] => true
  | c :: _ => !c.isDigit

theorem readDigits_append (l rest : Str) (acc : Nat)
    (h : ∀ c ∈ l, c.isDigit = true) :
    readDigits (l ++ rest) acc
      = readDigits rest (l.foldl (fun a c => a * 10 + (c.toNat - 48)) acc) := by
  induction l generalizing acc with
  | nil => rfl
  | cons c l ih =>
      simp only [List.cons_append, readDigits, h c (List.mem_cons_self c l), if_true,
        List.foldl_cons]
      exact ih _ (fun d hd => h d (List.mem_cons_of_mem c hd))

theorem readDigits_stop (s : Str) (acc : Nat) (h : noDigitHead s = true) :
    readDigits s acc = (acc, s) := by
  cases s with
  | nil => rfl
  | cons c cs =>
      simp only [noDigitHead, Bool.not_eq_true'] at h
      simp [readDigits, h]

theorem digitChar_isDigit {d : Nat} (h : d < 10) : (Nat.digitChar d).isDigit = true := by
  interval_cases d <;> decide

theorem digitChar_toNat {d : Nat} (h : d < 10) : (Nat.digitChar d).toNat = 48 + d := by
  interval_cases d <;> decide

theorem natToCharsAux_spec (n : Nat) : ∀ fuel acc, n < fuel →
    ∃ ds : Str, natToCharsAux fuel n acc = ds ++ acc
      ∧ (∀ c ∈ ds, c.isDigit = true)
      ∧ ds ≠ []
      ∧ ∀ a : Nat, ds.foldl (fun x c => x * 10 + (c.toNat - 48)) a
          = a * 10 ^ ds.length + n := by
  induction n using Nat.strong_induction_on with
  | _ n ih =>
      intro fuel acc hfuel
      cases fuel with
      | zero => omega
      | succ f =>
          by_cases hn : n < 10
          · refine ⟨[Nat.digitChar n], ?_, ?_, by simp, ?_⟩
            · simp [natToCharsAux, hn]
            · intro c hc
              simp at hc
              subst hc
              exact digitChar_isDigit hn
            · intro a
              simp only [List.foldl_cons, List.foldl_nil, List.length_cons,
                List.length_nil, digitChar_toNat hn, pow_one]
              omega
          · have hdiv : n / 10 < n := Nat.div_lt_self (by omega) (by norm_num)
            have hdivf : n / 10 < f := by omega
            obtain ⟨ds, hds, hdig, hne, hval⟩ :=
              ih (n / 10) hdiv f (Nat.digitChar (n % 10) :: acc) hdivf
            refine ⟨ds ++ [Nat.digitChar (n % 10)], ?_, ?_, by simp, ?_⟩
            · simp only [natToCharsAux, if_neg hn]
              rw [hds]
              simp
            · intro c hc
              rcases List.mem_append.mp hc with h1 | h2
              · exact hdig c h1
              · simp at h2
                subst h2
                exact digitChar_isDigit (Nat.mod_lt n (by norm_num))
            · intro a
              rw [List.foldl_append, hval a]
              simp only [List.foldl_cons, List.foldl_nil, List.length_append,
                List.length_cons, List.length_nil]
              rw [digitChar_toNat (Nat.mod_lt n (by norm_num))]
              have hmod : 48 + n % 10 - 48 = n % 10 := by omega
              rw [hmod, pow_succ]
              have := Nat.div_add_mod n 10
              ring_nf
              omega

theorem natToChars_all_digits (n : Nat) : ∀ c ∈ natToChars n, c.isDigit = true := by
  obtain ⟨ds, hds, hdig, _, _⟩ := natToCharsAux_spec n (n + 1) [] (Nat.lt_succ_self n)
  unfold natToChars
  rw [hds, List.append_nil]
  exact hdig

theorem foldl_natToChars (n : Nat) :
    (natToChars n).foldl (fun a c => a * 10 + (c.toNat - 48)) 0 = n := by
  obtain ⟨ds, hds, _, _, hval⟩ := natToCharsAux_spec n (n + 1) [] (Nat.lt_succ_self n)
  unfold natToChars
  rw [hds, List.append_nil]
  simpa using hval 0

theorem readDigits_natToChars (n : Nat) (rest : Str) (h : noDigitHead rest = true) :
    readDigits (natToChars n ++ rest) 0 = (n, rest) := by
  rw [readDigits_append _ _ _ (natToChars_all_digits n), foldl_natToChars,
    readDigits_stop _ _ h]

theorem natToChars_ne_nil (n : Nat) : natToChars n ≠ [] := by
  obtain ⟨ds, hds, _, hne, _⟩ := natToCharsAux_spec n (n + 1) [] (Nat.lt_succ_self n)
  unfold natToChars
  rw [hds, List.append_nil]
  exact hne

theorem parseNatTok_roundtrip (n : Nat) (rest : Str) (h : noDigitHead rest = true) :
    parseNatTok (natToChars n ++ rest) = some (n, rest) := by
  obtain ⟨c, cs, hcons⟩ := List.exists_cons_of_ne_nil (natToChars_ne_nil n)
  have hdig : c.isDigit = true := by
    apply natToChars_all_digits n
    rw [hcons]
    exact List.mem_cons_self c cs
  have : natToChars n ++ rest = c :: (cs ++ rest) := by rw [hcons]; rfl
  rw [this]
  simp only [parseNatTok, hdig, if_true]
  have := readDigits_natToChars n rest h
  rw [hcons] at this
  simpa using this

/-! ### The reversible BATCH payload codec

`AuditService.createBatchOperationAuditLog` stores
`JSON.stringify({ changes: [{property, originalProperty?}], deletions: [...] })`
in the entry's `newValue`; `AuditPage.handleRestore` recovers it with
`JSON.parse` followed by duck-typed access to `.changes` / `.deletions`.
The encoder below mirrors `JSON.stringify` on exactly these object shapes
(fields in declaration order, `undefined` fields omitted, `"`/`\` escaped,
`Date` values rendered as their quoted clock tick).  The decoder is a full
`JSON.parse` model followed by the duck-typed member extraction: only a
text that is not well-formed JSON (or one whose extraction throws) fails;
well-formed JSON without truthy `changes`/`deletions` members — including
the `'{}'` fallback text substituted for a missing payload — extracts
silently to the empty batch. -/

/-- One element of the `changes` array of a reversible batch payload. -/
structure BatchChange where
  property : Property
  originalProperty : Option Property
deriving Repr, DecidableEq

/-- The reversible payload `{ changes, deletions }` of a BATCH audit entry. -/
structure BatchData where
  changes : List BatchChange
  deletions : List Property
deriving Repr, DecidableEq

/-- JSON string escaping for one character (`"` and `\`). -/
def escChar (c : Char) : Str :=
  if c = '"' then ['\\', '"'] else if c = '\\' then ['\\', '\\'] else [c]

/-- A JSON string literal: `"…"` with `escChar` applied to the content. -/
def encStr (s : Str) : Str :=
  '"' :: s.flatMap escChar ++ ['"']

/-- `JSON.stringify` of one `Property` value as built by this code base. -/
def encodeProp (p : Property) : Str :=
  "\x7b\"id\":".data ++ encStr p.id ++
  ",\"environment\":".data ++ encStr p.environment ++
  ",\"key\":".data ++ encStr p.key ++
  ",\"value\":".data ++ encStr p.value ++
  (match p.description with
   | some d => ",\"description\":".data ++ encStr d
   | none => []) ++
  ",\"component\":".data ++ encStr p.component ++
  ",\"lastModified\":".data ++ encStr (natToChars p.lastModified) ++
  (match p.environmentOrder with
   | some n => ",\"environmentOrder\":".data ++ natToChars n
   | none => []) ++
  (match p.fileOrder with
   | some n => ",\"fileOrder\":".data ++ natToChars n
   | none => []) ++
  (match p.lineOrder with
   | some n => ",\"lineOrder\":".data ++ natToChars n
   | none => []) ++
  "\x7d".data

/-- `JSON.stringify` of one element of the `changes` array. -/
def encodeChange (c : BatchChange) : Str :=
  "\x7b\"property\":".data ++ encodeProp c.property ++
  (match c.originalProperty with
   | some o => ",\"originalProperty\":".data ++ encodeProp o
   | none => []) ++
  "\x7d".data

/-- The comma-separated element list of a `JSON.stringify`-ed array. -/
def encArrElems (enc : α → Str) : List α → Str
  | [] => []
  | [x] => enc x
  | x :: y :: xs => enc x ++ ',' :: encArrElems enc (y :: xs)

/-- `JSON.stringify` of an array, given the element encoder. -/
def encArr (enc : α → Str) (xs : List α) : Str :=
  '[' :: encArrElems enc xs ++ [']']

/-- `JSON.stringify(batchData)` as stored into `newValue`. -/
def encodeBatchData (b : BatchData) : Str :=
  "\x7b\"changes\":".data ++ encArr encodeChange b.changes ++
  ",\"deletions\":".data ++ encArr encodeProp b.deletions ++
  "\x7d".data

/-- Consume an expected literal prefix. -/
def dropLit : Str → Str → Option Str
  | [], s => some s
  | _ :: _, [] => none
  | l :: ls, c :: cs => if c = l then dropLit ls cs else none

/-- Parse a whole string as one decimal numeral. -/
def parseNatAll (s : Str) : Option Nat :=
  match parseNatTok s with
  | some (n, []) => some n
  | _ => none

/-! #### A model of `JSON.parse`

`AuditPage.handleRestore` recovers the payload with `JSON.parse` followed
by duck-typed access to `.changes` / `.deletions`, so the decoder must
accept every well-formed JSON text — not only texts in the grammar the
engine emits.  `jparse` below parses full JSON (all six value forms,
whitespace between tokens, string escapes including `\uXXXX`, the strict
number grammar, last-one-wins duplicate object keys); its one deliberate
laxity is that raw control characters inside string literals are accepted,
because the `JSON.stringify` model above (`escChar`) leaves them
unescaped. -/

/-- A maximal run of decimal digits, kept as text. -/
def jdigits : Str → Str × Str
  | [] => ([], [])
  | c :: cs =>
      if c.isDigit then
        let r := jdigits cs
        (c :: r.1, r.2)
      else ([], c :: cs)

/-- The optional fraction part `.digits` of a JSON number. -/
def jnumFrac (s : Str) : Option (Str × Str) :=
  match s with
  | [] => some ([], [])
  | c :: r =>
      if c = '.' then
        match jdigits r with
        | ([], _) => none
        | (ds, r2) => some ('.' :: ds, r2)
      else some ([], c :: r)

/-- The optional exponent part `[eE][+-]?digits` of a JSON number. -/
def jnumExp (s : Str) : Option (Str × Str) :=
  match s with
  | [] => some ([], [])
  | c :: r =>
      if c = 'e' ∨ c = 'E' then
        match r with
        | [] => none
        | c2 :: r2 =>
            if c2 = '+' ∨ c2 = '-' then
              match jdigits r2 with
              | ([], _) => none
              | (ds, r3) => some (c :: c2 :: ds, r3)
            else
              match jdigits (c2 :: r2) with
              | ([], _) => none
              | (ds, r3) => some (c :: ds, r3)
      else some ([], c :: r)

/-- An unsigned JSON number token (strict grammar: no leading zeros). -/
def jnumBody (s : Str) : Option (Str × Str) :=
  match jdigits s with
  | ([], _) => none
  | (d :: ds, r1) =>
      if d = '0' ∧ ds ≠ [] then none
      else
        match jnumFrac r1 with
        | none => none
        | some (fr, r2) =>
            match jnumExp r2 with
            | none => none
            | some (ex, r3) => some (d :: ds ++ fr ++ ex, r3)

/-- A JSON number token, kept as its raw text. -/
def jnumTok (s : Str) : Option (Str × Str) :=
  match s with
  | [] => none
  | c :: r =>
      if c = '-' then (jnumBody r).map (fun p => ('-' :: p.1, p.2))
      else jnumBody (c :: r)

/-- The single-character string escapes of JSON. -/
def jesc (e : Char) : Option Char :=
  if e = '"' then some '"'
  else if e = '\\' then some '\\'
  else if e = '/' then some '/'
  else if e = 'b' then some (Char.ofNat 8)
  else if e = 'f' then some (Char.ofNat 12)
  else if e = 'n' then some '\n'
  else if e = 'r' then some (Char.ofNat 13)
  else if e = 't' then some (Char.ofNat 9)
  else none

/-- The value of one hexadecimal digit. -/
def hexVal (c : Char) : Option Nat :=
  if c.isDigit then some (c.toNat - 48)
  else if 'a' ≤ c ∧ c ≤ 'f' then some (c.toNat - 87)
  else if 'A' ≤ c ∧ c ≤ 'F' then some (c.toNat - 55)
  else none

/-- The body of a JSON string literal (opening quote already consumed). -/
def jstrBody : Str → Option (Str × Str)
  | [] => none
  | c :: cs =>
      if c = '"' then some ([], cs)
      else if c = '\\' then
        match cs with
        | [] => none
        | e :: es =>
            if e = 'u' then
              match es with
              | h1 :: h2 :: h3 :: h4 :: es2 =>
                  match hexVal h1, hexVal h2, hexVal h3, hexVal h4 with
                  | some a, some b, some c2, some d =>
                      (jstrBody es2).map (fun r =>
                        (Char.ofNat (((a * 16 + b) * 16 + c2) * 16 + d) :: r.1, r.2))
                  | _, _, _, _ => none
              | _ => none
            else
              match jesc e with
              | none => none
              | some c2 => (jstrBody es).map (fun r => (c2 :: r.1, r.2))
      else (jstrBody cs).map (fun r => (c :: r.1, r.2))

/-- JSON insignificant whitespace. -/
def isJWs (c : Char) : Bool :=
  c = ' ' || c = '\t' || c = '\n' || c = '\r'

/-- Skip insignificant whitespace. -/
def skipJWs (s : Str) : Str :=
  s.dropWhile isJWs

/-- A parsed JSON value; numbers keep their raw token text. -/
inductive JValue where
  | jnull
  | jbool (b : Bool)
  | jnum (tok : Str)
  | jstr (s : Str)
  | jarr (elems : List JValue)
  | jobj (fields : List (Str × JValue))

/-- What the recursive-descent parser is currently reading: one value, the
rest of an array's element list, or the rest of an object's field list. -/
inductive JMode where
  | val
  | elems
  | fields
deriving Repr, DecidableEq

/-- The result of one parsing mode. -/
inductive JOut where
  | v (x : JValue)
  | es (xs : List JValue)
  | fs (xs : List (Str × JValue))

/-- One fuelled step of the JSON recursive descent: a value, or the
comma-separated continuation of an array / object.  The fuel only bounds
the recursion depth; each recursive call strictly decreases it. -/
def jparseStep : Nat → JMode → Str → Option (JOut × Str)
  | 0, _, _ => none
  | f + 1, .val, s =>
      match skipJWs s with
      | [] => none
      | c :: r =>
          if c = 'n' then
            match dropLit "ull".data r with
            | some r2 => some (.v .jnull, r2)
            | none => none
          else if c = 't' then
            match dropLit "rue".data r with
            | some r2 => some (.v (.jbool true), r2)
            | none => none
          else if c = 'f' then
            match dropLit "alse".data r with
            | some r2 => some (.v (.jbool false), r2)
            | none => none
          else if c = '"' then
            match jstrBody r with
            | some (x, r2) => some (.v (.jstr x), r2)
            | none => none
          else if c = '[' then
            match skipJWs r with
            | ']' :: r2 => some (.v (.jarr []), r2)
            | _ =>
                match jparseStep f .elems r with
                | some (.es xs, r2) => some (.v (.jarr xs), r2)
                | _ => none
          else if c = '\x7b' then
            match skipJWs r with
            | '\x7d' :: r2 => some (.v (.jobj []), r2)
            | _ =>
                match jparseStep f .fields r with
                | some (.fs xs, r2) => some (.v (.jobj xs), r2)
                | _ => none
          else
            match jnumTok (c :: r) with
            | some (t, r2) => some (.v (.jnum t), r2)
            | none => none
  | f + 1, .elems, s =>
      match jparseStep f .val s with
      | some (.v x, r) =>
          match skipJWs r with
          | ',' :: r2 =>
              match jparseStep f .elems r2 with
              | some (.es xs, r3) => some (.es (x :: xs), r3)
              | _ => none
          | ']' :: r2 => some (.es [x], r2)
          | _ => none
      | _ => none
  | f + 1, .fields, s =>
      match skipJWs s with
      | [] => none
      | c :: r =>
          if c = '"' then
            match jstrBody r with
            | none => none
            | some (name, r2) =>
                match skipJWs r2 with
                | ':' :: r3 =>
                    match jparseStep f .val r3 with
                    | some (.v x, r4) =>
                        match skipJWs r4 with
                        | ',' :: r5 =>
                            match jparseStep f .fields r5 with
                            | some (.fs xs, r6) => some (.fs ((name, x) :: xs), r6)
                            | _ => none
                        | '\x7d' :: r5 => some (.fs [(name, x)], r5)
                        | _ => none
                    | _ => none
                | _ => none
          else none

/-- `JSON.parse`: one value, with only whitespace allowed after it.  The
fuel `4 * length + 4` dominates the recursion depth (every two levels of
descent consume at least one input character). -/
def jparse (s : Str) : Option JValue :=
  match jparseStep (4 * s.length + 4) JMode.val s with
  | some (.v x, r) => if skipJWs r = [] then some x else none
  | _ => none

/-! #### Duck-typed extraction from the parsed value

`handleRestore` reads `batchData.changes` / `batchData.deletions` off
whatever `JSON.parse` returned: a missing or falsy field is skipped
silently, a truthy non-array makes `.forEach` throw into the same catch
path as a parse error, and property access on `null` throws.  The element
conversions below recover typed rows from array elements; every element
shape whose real execution ends in an exception (on field access, on the
audit-log insert, or in `App.handleRestore`) — always with an error shown
and no table row committed — is collapsed to the error result. -/

/-- JavaScript member access on a JSON object: the *last* binding of a
duplicated key wins, as in `JSON.parse`. -/
def jlookup (fields : List (Str × JValue)) (name : Str) : Option JValue :=
  fields.foldl (fun acc kv => if kv.1 = name then some kv.2 else acc) none

/-- `v.name`: `none` is a thrown `TypeError` (member access on `null`),
`some none` is `undefined`, `some (some x)` is the field's value. -/
def jfield : JValue → Str → Option (Option JValue)
  | .jnull, _ => none
  | .jobj fs, name => some (jlookup fs name)
  | _, _ => some none

/-- Whether a JSON number token denotes zero (falsy): its mantissa has no
non-zero digit. -/
def jnumMantissaZero (tok : Str) : Bool :=
  ((tok.takeWhile (fun c => !(c == 'e' || c == 'E'))).filter Char.isDigit).all
    (fun c => c == '0')

/-- JavaScript truthiness of a parsed JSON value. -/
def jtruthy : JValue → Bool
  | .jnull => false
  | .jbool b => b
  | .jnum tok => !jnumMantissaZero tok
  | .jstr s => !s.isEmpty
  | .jarr _ => true
  | .jobj _ => true

/-- A member the change loop skips silently: absent (`undefined`) or
present but falsy (`false` when the access itself throws). -/
def jfieldSkipped (j : JValue) (name : Str) : Bool :=
  match jfield j name with
  | some none => true
  | some (some v) => !jtruthy v
  | none => false

/-- A value used as a string (other shapes collapse to the error result). -/
def jAsStr : JValue → Option Str
  | .jstr s => some s
  | _ => none

/-- A value used as a non-negative integer. -/
def jAsNat : JValue → Option Nat
  | .jnum tok => parseNatAll tok
  | _ => none

/-- A required string-valued member. -/
def reqStrField (v : JValue) (name : Str) : Option Str :=
  match jfield v name with
  | some (some x) => jAsStr x
  | _ => none

/-- An optional string-valued member (`undefined` allowed). -/
def optStrField (v : JValue) (name : Str) : Option (Option Str) :=
  match jfield v name with
  | none => none
  | some none => some none
  | some (some x) => (jAsStr x).map some

/-- An optional number-valued member (`undefined` allowed). -/
def optNatField (v : JValue) (name : Str) : Option (Option Nat) :=
  match jfield v name with
  | none => none
  | some none => some none
  | some (some x) => (jAsNat x).map some

/-- The all-empty property recorded for an unreadable, never-consulted
`property` member. -/
def emptyProp : Property :=
  ⟨[], [], [], [], none, [], 0, none, none, none⟩

/-- A pushed property value read back as a typed row (the fields the
resolver, the audit insert and `App.handleRestore` consume). -/
def propOfJ (v : JValue) : Option Property :=
  match reqStrField v "id".data with
  | none => none
  | some id =>
  match reqStrField v "environment".data with
  | none => none
  | some environment =>
  match reqStrField v "key".data with
  | none => none
  | some key =>
  match reqStrField v "value".data with
  | none => none
  | some value =>
  match optStrField v "description".data with
  | none => none
  | some description =>
  match reqStrField v "component".data with
  | none => none
  | some component =>
  match reqStrField v "lastModified".data with
  | none => none
  | some lmTok =>
  match parseNatAll lmTok with
  | none => none
  | some lastModified =>
  match optNatField v "environmentOrder".data with
  | none => none
  | some environmentOrder =>
  match optNatField v "fileOrder".data with
  | none => none
  | some fileOrder =>
  match optNatField v "lineOrder".data with
  | none => none
  | some lineOrder =>
      some ⟨id, environment, key, value, description, component, lastModified,
        environmentOrder, fileOrder, lineOrder⟩

/-- The `else` arm of the change loop: `change.originalProperty` is falsy,
so `change.property` is pushed onto `deletedProperties`. -/
def pushCreated (c : JValue) : Option BatchChange :=
  match jfield c "property".data with
  | none => none
  | some none => none
  | some (some pv) => (propOfJ pv).map (fun p => ⟨p, none⟩)

/-- One element of `batchData.changes`: a truthy `originalProperty` is
pushed (with a refreshed `lastModified`) onto `restoredProperties`,
otherwise `change.property` is pushed onto `deletedProperties`.  The
`property` component is not consulted by the resolver when
`originalProperty` is truthy; an unreadable one is recorded as the empty
property. -/
def changeOfJ (c : JValue) : Option BatchChange :=
  match jfield c "originalProperty".data with
  | none => none
  | some (some ov) =>
      if jtruthy ov then
        match propOfJ ov with
        | none => none
        | some o =>
            match jfield c "property".data with
            | none => none
            | some fp => some ⟨(fp.bind propOfJ).getD emptyProp, some o⟩
      else pushCreated c
  | some none => pushCreated c

/-- Convert every element of an array, failing if any element fails. -/
def convList (f : JValue → Option α) : List JValue → Option (List α)
  | [] => some []
  | x :: xs =>
      match f x with
      | none => none
      | some a => (convList f xs).map (fun l => a :: l)

/-- `if (field) field.forEach(...)`: a missing or falsy member contributes
nothing, a truthy array is converted element by element, and a truthy
non-array throws (`forEach` is not a function). -/
def arrField (fv : Option JValue) (f : JValue → Option α) : Option (List α) :=
  match fv with
  | none => some []
  | some v =>
      if jtruthy v then
        match v with
        | .jarr es => convList f es
        | _ => none
      else some []

/-- The whole duck-typed extraction of the BATCH restore branch. -/
def extractBatch (j : JValue) : Option BatchData :=
  match jfield j "changes".data with
  | none => none
  | some cf =>
      match arrField cf changeOfJ with
      | none => none
      | some cs =>
          match jfield j "deletions".data with
          | none => none
          | some df =>
              match arrField df propOfJ with
              | none => none
              | some ds => some ⟨cs, ds⟩

/-- `JSON.parse(newValue || '{}')` followed by the `.changes`/`.deletions`
extraction of `AuditPage.handleRestore`: a text that is not well-formed
JSON fails (the resolver's catch path), any well-formed JSON value is
extracted duck-typedly — in particular `'{}'` and every value without a
truthy `changes`/`deletions` member extract to the empty batch. -/
def decodeBatchPayload (v : Str) : Option BatchData :=
  match jparse v with
  | none => none
  | some j => extractBatch j

/-! #### The parsed form of the engine's own payloads

For the round trip (claim C2) each canonical object is described as a
field list carrying, per field, its name, its encoded text and its parsed
value; `fieldsEncode` / `elemsEncode` rebuild exactly the comma-separated
text the `JSON.stringify` model emits. -/

/-- The canonical text of a field list (no whitespace, comma-separated). -/
def fieldsEncode : List (Str × Str × JValue) → Str
  | [] => []
  | [(n, ve, _)] => encStr n ++ ':' :: ve
  | (n, ve, _) :: rest => encStr n ++ ':' :: ve ++ ',' :: fieldsEncode rest

/-- The canonical text of an array's element list. -/
def elemsEncode : List (Str × JValue) → Str
  | [] => []
  | [(ve, _)] => ve
  | (ve, _) :: rest => ve ++ ',' :: elemsEncode rest

/-- The fields of a serialized `Property`, in `encodeProp`'s order, with
optional fields omitted. -/
def propItems (p : Property) : List (Str × Str × JValue) :=
  [("id".data, encStr p.id, .jstr p.id),
   ("environment".data, encStr p.environment, .jstr p.environment),
   ("key".data, encStr p.key, .jstr p.key),
   ("value".data, encStr p.value, .jstr p.value)]
  ++ (match p.description with
      | some d => [("description".data, encStr d, JValue.jstr d)]
      | none => [])
  ++ [("component".data, encStr p.component, .jstr p.component),
      ("lastModified".data, encStr (natToChars p.lastModified),
        .jstr (natToChars p.lastModified))]
  ++ (match p.environmentOrder with
      | some n => [("environmentOrder".data, natToChars n, JValue.jnum (natToChars n))]
      | none => [])
  ++ (match p.fileOrder with
      | some n => [("fileOrder".data, natToChars n, JValue.jnum (natToChars n))]
      | none => [])
  ++ (match p.lineOrder with
      | some n => [("lineOrder".data, natToChars n, JValue.jnum (natToChars n))]
      | none => [])

/-- The JSON value `JSON.parse` recovers from a serialized `Property`. -/
def jvalOfProp (p : Property) : JValue :=
  .jobj ((propItems p).map (fun it => (it.1, it.2.2)))

/-- The fields of a serialized `BatchChange`. -/
def changeItems (c : BatchChange) : List (Str × Str × JValue) :=
  [("property".data, encodeProp c.property, jvalOfProp c.property)]
  ++ (match c.originalProperty with
      | some o => [("originalProperty".data, encodeProp o, jvalOfProp o)]
      | none => [])

/-- The JSON value `JSON.parse` recovers from a serialized change. -/
def jvalOfChange (c : BatchChange) : JValue :=
  .jobj ((changeItems c).map (fun it => (it.1, it.2.2)))

/-- The fields of a serialized batch payload. -/
def batchItems (b : BatchData) : List (Str × Str × JValue) :=
  [("changes".data, encArr encodeChange b.changes,
      .jarr (b.changes.map jvalOfChange)),
   ("deletions".data, encArr encodeProp b.deletions,
      .jarr (b.deletions.map jvalOfProp))]

/-- The JSON value `JSON.parse` recovers from a stored payload. -/
def jvalOfBatch (b : BatchData) : JValue :=
  .jobj ((batchItems b).map (fun it => (it.1, it.2.2)))

/-- A numeral boundary: the next character cannot extend a number token. -/
def noNumExt (s : Str) : Bool :=
  match s with
  | [] => true
  | c :: _ => !(c.isDigit || c == '.' || c == 'e' || c == 'E')

/-! ### Round trip of the payload codec -/

theorem dropLit_pre (l s : Str) : dropLit l (l ++ s) = some s := by
  induction l with
  | nil => rfl
  | cons c cs ih => simp [dropLit, ih]

theorem parseNatAll_rt (n : Nat) : parseNatAll (natToChars n) = some n := by
  have := parseNatTok_roundtrip n [] rfl
  simp only [List.append_nil] at this
  simp [parseNatAll, this]

theorem jstrBody_rt (s rest : Str) :
    jstrBody (s.flatMap escChar ++ '"' :: rest) = some (s, rest) := by
  induction s with
  | nil =>
      rw [List.flatMap_nil, List.nil_append, jstrBody.eq_def]
      simp
  | cons c cs ih =>
      by_cases hq : c = '"'
      · subst hq
        simp only [List.flatMap_cons, escChar, if_pos rfl, List.append_assoc,
          List.cons_append, List.nil_append]
        rw [jstrBody.eq_def]
        simp [jesc, ih]
      · by_cases hb : c = '\\'
        · subst hb
          simp only [List.flatMap_cons, escChar,
            if_neg (by decide : ('\\' : Char) ≠ '"'), if_pos rfl,
            List.append_assoc, List.cons_append, List.nil_append]
          rw [jstrBody.eq_def]
          simp [jesc, ih]
        · simp only [List.flatMap_cons, escChar, if_neg hq, if_neg hb,
            List.append_assoc, List.cons_append, List.nil_append]
          rw [jstrBody.eq_def]
          simp [hq, hb, ih]

theorem skipJWs_cons (c : Char) (s : Str) (h : isJWs c = false) :
    skipJWs (c :: s) = c :: s := by
  simp [skipJWs, List.dropWhile_cons, h]

theorem jdigits_append (d rest : Str) (hd : ∀ c ∈ d, c.isDigit = true)
    (hr : noDigitHead rest = true) : jdigits (d ++ rest) = (d, rest) := by
  induction d with
  | nil =>
      cases rest with
      | nil => rfl
      | cons c cs =>
          simp only [noDigitHead, Bool.not_eq_true'] at hr
          simp [jdigits, hr]
  | cons c cs ih =>
      have hdc := hd c (List.mem_cons_self c cs)
      have hih := ih (fun x hx => hd x (List.mem_cons_of_mem c hx))
      simp [jdigits, hdc, hih]

theorem natToCharsAux_lead (n : Nat) : ∀ fuel acc, n < fuel → 1 ≤ n →
    ∃ d ds, natToCharsAux fuel n acc = d :: ds ++ acc ∧ d ≠ '0' := by
  induction n using Nat.strong_induction_on with
  | _ n ih =>
      intro fuel acc hfuel hn1
      cases fuel with
      | zero => omega
      | succ f =>
          by_cases hn : n < 10
          · refine ⟨Nat.digitChar n, [], ?_, ?_⟩
            · simp [natToCharsAux, hn]
            · interval_cases n <;> decide
          · have hdiv : n / 10 < n := Nat.div_lt_self (by omega) (by norm_num)
            have hdivf : n / 10 < f := by omega
            have hdiv1 : 1 ≤ n / 10 :=
              (Nat.le_div_iff_mul_le (by norm_num)).mpr (by omega)
            obtain ⟨d, ds, hds, hd0⟩ :=
              ih (n / 10) hdiv f (Nat.digitChar (n % 10) :: acc) hdivf hdiv1
            refine ⟨d, ds ++ [Nat.digitChar (n % 10)], ?_, hd0⟩
            simp only [natToCharsAux, if_neg hn]
            rw [hds]
            simp

theorem natToChars_lead (n : Nat) (hn : 1 ≤ n) :
    ∃ d ds, natToChars n = d :: ds ∧ d ≠ '0' := by
  obtain ⟨d, ds, hds, hd0⟩ :=
    natToCharsAux_lead n (n + 1) [] (Nat.lt_succ_self n) hn
  refine ⟨d, ds, ?_, hd0⟩
  unfold natToChars
  rw [hds, List.append_nil]

theorem noNumExt_elim (c : Char) (cs : Str) (h : noNumExt (c :: cs) = true) :
    c.isDigit = false ∧ c ≠ '.' ∧ c ≠ 'e' ∧ c ≠ 'E' := by
  have h2 : (c.isDigit || c == '.' || c == 'e' || c == 'E') = false := by
    simpa [noNumExt] using h
  simpa [and_assoc] using h2

theorem jnumFrac_stop (rest : Str) (hr : noNumExt rest = true) :
    jnumFrac rest = some ([], rest) := by
  cases rest with
  | nil => rfl
  | cons c cs =>
      obtain ⟨-, hdot, -, -⟩ := noNumExt_elim c cs hr
      simp [jnumFrac, hdot]

theorem jnumExp_stop (rest : Str) (hr : noNumExt rest = true) :
    jnumExp rest = some ([], rest) := by
  cases rest with
  | nil => rfl
  | cons c cs =>
      obtain ⟨-, -, he, hE⟩ := noNumExt_elim c cs hr
      simp [jnumExp, he, hE]

theorem jnumBody_nat (n : Nat) (rest : Str) (hr : noNumExt rest = true) :
    jnumBody (natToChars n ++ rest) = some (natToChars n, rest) := by
  have hdig := natToChars_all_digits n
  have hrd : noDigitHead rest = true := by
    cases rest with
    | nil => rfl
    | cons c cs =>
        obtain ⟨hcd, -, -, -⟩ := noNumExt_elim c cs hr
        simp [noDigitHead, hcd]
  have hjd : jdigits (natToChars n ++ rest) = (natToChars n, rest) :=
    jdigits_append _ _ hdig hrd
  obtain ⟨c0, cs0, hcons⟩ := List.exists_cons_of_ne_nil (natToChars_ne_nil n)
  have hlz : ¬(c0 = '0' ∧ cs0 ≠ []) := by
    by_cases hn0 : n = 0
    · subst hn0
      have h00 : natToChars 0 = ['0'] := by decide
      rw [h00] at hcons
      intro hcontra
      exact hcontra.2 (by injection hcons with h1 h2; exact h2.symm)
    · obtain ⟨d, ds, hds, hd0⟩ := natToChars_lead n (by omega)
      rw [hds] at hcons
      injection hcons with h1 h2
      intro hcontra
      exact hd0 (h1.trans hcontra.1)
  rw [jnumBody, hjd, hcons]
  simp only [if_neg hlz, jnumFrac_stop rest hr, jnumExp_stop rest hr]
  simp [hcons]

theorem jnumTok_nat (n : Nat) (rest : Str) (hr : noNumExt rest = true) :
    jnumTok (natToChars n ++ rest) = some (natToChars n, rest) := by
  obtain ⟨c0, cs0, hcons⟩ := List.exists_cons_of_ne_nil (natToChars_ne_nil n)
  have hdigc : c0.isDigit = true := by
    apply natToChars_all_digits n
    rw [hcons]
    exact List.mem_cons_self c0 cs0
  have hne : c0 ≠ '-' := by
    intro h
    rw [h] at hdigc
    exact absurd hdigc (by decide)
  have hstream : natToChars n ++ rest = c0 :: (cs0 ++ rest) := by
    rw [hcons]
    rfl
  rw [hstream, jnumTok, if_neg hne, ← hstream]
  exact jnumBody_nat n rest hr

theorem digit_head_facts (c : Char) (h : c.isDigit = true) :
    isJWs c = false ∧ c ≠ 'n' ∧ c ≠ 't' ∧ c ≠ 'f' ∧ c ≠ '"' ∧ c ≠ '['
      ∧ c ≠ '\x7b' := by
  refine ⟨?_, ?_, ?_, ?_, ?_, ?_, ?_⟩
  · cases hw : isJWs c
    · rfl
    · have hw2 : ((c = ' ' ∨ c = '\t') ∨ c = '\n') ∨ c = '\r' := by
        simpa [isJWs] using hw
      rcases hw2 with ((h2 | h2) | h2) | h2 <;>
        (rw [h2] at h; exact absurd h (by decide))
  all_goals
    intro h2
    rw [h2] at h
    exact absurd h (by decide)

theorem jparseStep_str (f : Nat) (s rest : Str) :
    jparseStep (f + 1) JMode.val (encStr s ++ rest)
      = some (.v (.jstr s), rest) := by
  have hstream : encStr s ++ rest = '"' :: (s.flatMap escChar ++ '"' :: rest) := by
    simp [encStr]
  rw [hstream, jparseStep.eq_def]
  simp [skipJWs_cons _ _ (by decide : isJWs '"' = false), jstrBody_rt]

theorem jparseStep_nat (f : Nat) (n : Nat) (rest : Str)
    (hr : noNumExt rest = true) :
    jparseStep (f + 1) JMode.val (natToChars n ++ rest)
      = some (.v (.jnum (natToChars n)), rest) := by
  obtain ⟨c0, cs0, hcons⟩ := List.exists_cons_of_ne_nil (natToChars_ne_nil n)
  have hdigc : c0.isDigit = true := by
    apply natToChars_all_digits n
    rw [hcons]
    exact List.mem_cons_self c0 cs0
  obtain ⟨hws, hn, ht, hf, hq, hlb, hob⟩ := digit_head_facts c0 hdigc
  have hstream : natToChars n ++ rest = c0 :: (cs0 ++ rest) := by
    rw [hcons]
    rfl
  have hj : jnumTok (c0 :: (cs0 ++ rest)) = some (natToChars n, rest) := by
    rw [← hstream]
    exact jnumTok_nat n rest hr
  rw [hstream, jparseStep.eq_def]
  simp [skipJWs_cons _ _ hws, hn, ht, hf, hq, hlb, hob, hj]

theorem jfields_chain (B : Nat) (items : List (Str × Str × JValue))
    (hitems : ∀ it ∈ items, ∀ f r, B ≤ f → noNumExt r = true →
      jparseStep (f + 1) JMode.val (it.2.1 ++ r) = some (.v it.2.2, r)) :
    ∀ f, B + items.length ≤ f → items ≠ [] → ∀ rest,
      jparseStep (f + 1) JMode.fields (fieldsEncode items ++ '\x7d' :: rest)
        = some (.fs (items.map (fun it => (it.1, it.2.2))), rest) := by
  induction items with
  | nil =>
      intro f hf hne rest
      exact absurd rfl hne
  | cons x t ih =>
      intro f hf hne rest
      obtain ⟨nm, ve, av⟩ := x
      cases f with
      | zero => simp at hf
      | succ f2 =>
          have hx := hitems (nm, ve, av) (List.mem_cons_self _ _)
          have hf2 : B ≤ f2 := by
            simp only [List.length_cons] at hf
            omega
          cases t with
          | nil =>
              have hstream : fieldsEncode [(nm, ve, av)] ++ '\x7d' :: rest
                  = '"' :: (nm.flatMap escChar
                      ++ '"' :: (':' :: (ve ++ '\x7d' :: rest))) := by
                simp [fieldsEncode, encStr]
              have hval : jparseStep (f2 + 1) JMode.val (ve ++ '\x7d' :: rest)
                  = some (.v av, '\x7d' :: rest) :=
                hx f2 _ hf2 rfl
              rw [hstream, jparseStep.eq_def]
              simp [skipJWs_cons _ _ (by decide : isJWs '"' = false),
                jstrBody_rt nm, skipJWs_cons _ _ (by decide : isJWs ':' = false),
                skipJWs_cons _ _ (by decide : isJWs '\x7d' = false), hval]
          | cons y t2 =>
              have hstream : fieldsEncode ((nm, ve, av) :: y :: t2) ++ '\x7d' :: rest
                  = '"' :: (nm.flatMap escChar ++ '"' :: (':' :: (ve ++ ','
                      :: (fieldsEncode (y :: t2) ++ '\x7d' :: rest)))) := by
                simp [fieldsEncode, encStr]
              have hval : jparseStep (f2 + 1) JMode.val
                    (ve ++ ',' :: (fieldsEncode (y :: t2) ++ '\x7d' :: rest))
                  = some (.v av, ',' :: (fieldsEncode (y :: t2) ++ '\x7d' :: rest)) :=
                hx f2 _ hf2 rfl
              have hrest : jparseStep (f2 + 1) JMode.fields
                    (fieldsEncode (y :: t2) ++ '\x7d' :: rest)
                  = some (.fs ((y :: t2).map (fun it => (it.1, it.2.2))), rest) :=
                ih (fun it hit => hitems it (List.mem_cons_of_mem _ hit)) f2
                  (by simp only [List.length_cons] at hf ⊢; omega) (by simp) rest
              rw [hstream, jparseStep.eq_def]
              simp [skipJWs_cons _ _ (by decide : isJWs '"' = false),
                jstrBody_rt nm, skipJWs_cons _ _ (by decide : isJWs ':' = false),
                skipJWs_cons _ _ (by decide : isJWs ',' = false), hval, hrest]

theorem jobj_parse (B : Nat) (items : List (Str × Str × JValue))
    (hitems : ∀ it ∈ items, ∀ f r, B ≤ f → noNumExt r = true →
      jparseStep (f + 1) JMode.val (it.2.1 ++ r) = some (.v it.2.2, r)) :
    ∀ f, B + items.length + 1 ≤ f → ∀ rest,
      jparseStep (f + 1) JMode.val ('\x7b' :: (fieldsEncode items ++ '\x7d' :: rest))
        = some (.v (.jobj (items.map (fun it => (it.1, it.2.2)))), rest) := by
  intro f hf rest
  cases f with
  | zero => omega
  | succ f2 =>
      rw [jparseStep.eq_def]
      cases items with
      | nil =>
          simp [fieldsEncode, skipJWs_cons _ _ (by decide : isJWs '\x7b' = false),
            skipJWs_cons _ _ (by decide : isJWs '\x7d' = false)]
      | cons x t =>
          have hch := jfields_chain B (x :: t) hitems f2
            (by simp only [List.length_cons] at hf ⊢; omega) (by simp) rest
          obtain ⟨u, hu⟩ : ∃ u, fieldsEncode (x :: t) ++ '\x7d' :: rest
              = '"' :: u := by
            obtain ⟨nm, ve, av⟩ := x
            cases t with
            | nil =>
                exact ⟨nm.flatMap escChar ++ '"' :: (':' :: (ve ++ '\x7d' :: rest)),
                  by simp [fieldsEncode, encStr]⟩
            | cons y t2 =>
                exact ⟨nm.flatMap escChar ++ '"' :: (':' :: (ve ++ ','
                    :: (fieldsEncode (y :: t2) ++ '\x7d' :: rest))),
                  by simp [fieldsEncode, encStr]⟩
          rw [hu]
          rw [hu] at hch
          simp [skipJWs_cons _ _ (by decide : isJWs '\x7b' = false),
            skipJWs_cons _ _ (by decide : isJWs '"' = false), hch]

theorem jelems_chain (B : Nat) (items : List (Str × JValue))
    (hitems : ∀ it ∈ items, ∀ f r, B ≤ f → noNumExt r = true →
      jparseStep (f + 1) JMode.val (it.1 ++ r) = some (.v it.2, r)) :
    ∀ f, B + items.length ≤ f → items ≠ [] → ∀ rest,
      jparseStep (f + 1) JMode.elems (elemsEncode items ++ ']' :: rest)
        = some (.es (items.map Prod.snd), rest) := by
  induction items with
  | nil =>
      intro f hf hne rest
      exact absurd rfl hne
  | cons x t ih =>
      intro f hf hne rest
      obtain ⟨ve, av⟩ := x
      cases f with
      | zero => simp at hf
      | succ f2 =>
          have hx := hitems (ve, av) (List.mem_cons_self _ _)
          have hf2 : B ≤ f2 := by
            simp only [List.length_cons] at hf
            omega
          cases t with
          | nil =>
              have hval : jparseStep (f2 + 1) JMode.val (ve ++ ']' :: rest)
                  = some (.v av, ']' :: rest) :=
                hx f2 _ hf2 rfl
              have hstream : elemsEncode [(ve, av)] ++ ']' :: rest
                  = ve ++ ']' :: rest := by
                simp [elemsEncode]
              rw [hstream, jparseStep.eq_def]
              simp [hval, skipJWs_cons _ _ (by decide : isJWs ']' = false)]
          | cons y t2 =>
              have hval : jparseStep (f2 + 1) JMode.val
                    (ve ++ ',' :: (elemsEncode (y :: t2) ++ ']' :: rest))
                  = some (.v av, ',' :: (elemsEncode (y :: t2) ++ ']' :: rest)) :=
                hx f2 _ hf2 rfl
              have hrest : jparseStep (f2 + 1) JMode.elems
                    (elemsEncode (y :: t2) ++ ']' :: rest)
                  = some (.es ((y :: t2).map Prod.snd), rest) :=
                ih (fun it hit => hitems it (List.mem_cons_of_mem _ hit)) f2
                  (by simp only [List.length_cons] at hf ⊢; omega) (by simp) rest
              have hstream : elemsEncode ((ve, av) :: y :: t2) ++ ']' :: rest
                  = ve ++ ',' :: (elemsEncode (y :: t2) ++ ']' :: rest) := by
                simp [elemsEncode]
              rw [hstream, jparseStep.eq_def]
              simp [hval, skipJWs_cons _ _ (by decide : isJWs ',' = false), hrest]

theorem jarr_parse (B : Nat) (items : List (Str × JValue))
    (hitems : ∀ it ∈ items, ∀ f r, B ≤ f → noNumExt r = true →
      jparseStep (f + 1) JMode.val (it.1 ++ r) = some (.v it.2, r))
    (hheads : ∀ it ∈ items, ∃ u, it.1 = '\x7b' :: u) :
    ∀ f, B + items.length + 1 ≤ f → ∀ rest,
      jparseStep (f + 1) JMode.val ('[' :: (elemsEncode items ++ ']' :: rest))
        = some (.v (.jarr (items.map Prod.snd)), rest) := by
  intro f hf rest
  cases f with
  | zero => omega
  | succ f2 =>
      rw [jparseStep.eq_def]
      cases items with
      | nil =>
          simp [elemsEncode, skipJWs_cons _ _ (by decide : isJWs '[' = false),
            skipJWs_cons _ _ (by decide : isJWs ']' = false)]
      | cons x t =>
          obtain ⟨u, hu⟩ := hheads x (List.mem_cons_self x t)
          have hch := jelems_chain B (x :: t) hitems f2
            (by simp only [List.length_cons] at hf ⊢; omega) (by simp) rest
          obtain ⟨w, hw⟩ : ∃ w, elemsEncode (x :: t) ++ ']' :: rest
              = '\x7b' :: w := by
            cases t <;> simp [elemsEncode, hu]
          rw [hw]
          rw [hw] at hch
          simp [skipJWs_cons _ _ (by decide : isJWs '[' = false),
            skipJWs_cons _ _ (by decide : isJWs '\x7b' = false), hch]

theorem elemsEncode_map {α : Type _} (enc : α → Str) (g : α → JValue)
    (xs : List α) :
    elemsEncode (xs.map (fun x => (enc x, g x))) = encArrElems enc xs := by
  induction xs with
  | nil => rfl
  | cons x t ih =>
      cases t with
      | nil => rfl
      | cons y t2 =>
          show enc x ++ ',' :: elemsEncode ((y :: t2).map (fun z => (enc z, g z)))
              = enc x ++ ',' :: encArrElems enc (y :: t2)
          rw [ih]

theorem encArrElems_length_ge {α : Type _} (enc : α → Str) (xs : List α)
    (h : ∀ y ∈ xs, enc y ≠ []) : xs.length ≤ (encArrElems enc xs).length := by
  induction xs with
  | nil => simp [encArrElems]
  | cons x xs ih =>
      cases xs with
      | nil =>
          have := h x (List.mem_cons_self x [])
          have : 1 ≤ (enc x).length := by
            cases hx : enc x with
            | nil => exact absurd hx this
            | cons a as => simp
          simpa [encArrElems] using this
      | cons y ys =>
          have h1 := h x (List.mem_cons_self x (y :: ys))
          have h2 : 1 ≤ (enc x).length := by
            cases hx : enc x with
            | nil => exact absurd hx h1
            | cons a as => simp
          have h3 := ih (fun z hz => h z (List.mem_cons_of_mem x hz))
          simp only [encArrElems, List.length_append, List.length_cons]
          simp only [List.length_cons] at h3
          omega

theorem encodeProp_items (p : Property) (rest : Str) :
    encodeProp p ++ rest
      = '\x7b' :: (fieldsEncode (propItems p) ++ '\x7d' :: rest) := by
  rcases hd : p.description with _ | d <;>
    rcases heo : p.environmentOrder with _ | eo <;>
    rcases hfo : p.fileOrder with _ | fo <;>
    rcases hlo : p.lineOrder with _ | lo <;>
    simp [encodeProp, propItems, fieldsEncode, encStr, escChar, hd, heo, hfo, hlo]

theorem propItems_length (p : Property) : (propItems p).length ≤ 10 := by
  obtain ⟨id, env, key, val, dsc, comp, lm, eo, fo, lo⟩ := p
  rcases dsc with _ | d <;> rcases eo with _ | e <;> rcases fo with _ | f2 <;>
    rcases lo with _ | l2 <;>
    simp [propItems]

theorem propItems_parse (p : Property) :
    ∀ it ∈ propItems p, ∀ f r, 0 ≤ f → noNumExt r = true →
      jparseStep (f + 1) JMode.val (it.2.1 ++ r) = some (.v it.2.2, r) := by
  intro it hit f r _ hr
  have hstr : ∀ s : Str, jparseStep (f + 1) JMode.val (encStr s ++ r)
      = some (.v (.jstr s), r) := fun s => jparseStep_str f s r
  have hnat : ∀ n : Nat, jparseStep (f + 1) JMode.val (natToChars n ++ r)
      = some (.v (.jnum (natToChars n)), r) := fun n => jparseStep_nat f n r hr
  rcases List.mem_append.mp hit with h5 | h6
  · rcases List.mem_append.mp h5 with h4 | h5b
    · rcases List.mem_append.mp h4 with h3 | h4b
      · rcases List.mem_append.mp h3 with h2 | h3b
        · rcases List.mem_append.mp h2 with h1 | h2b
          · simp only [List.mem_cons, List.not_mem_nil, or_false] at h1
            rcases h1 with rfl | rfl | rfl | rfl
            · exact hstr p.id
            · exact hstr p.environment
            · exact hstr p.key
            · exact hstr p.value
          · rcases hd : p.description with _ | dsc
            · rw [hd] at h2b
              simp at h2b
            · rw [hd] at h2b
              simp only [List.mem_cons, List.not_mem_nil, or_false] at h2b
              subst h2b
              exact hstr dsc
        · simp only [List.mem_cons, List.not_mem_nil, or_false] at h3b
          rcases h3b with rfl | rfl
          · exact hstr p.component
          · exact hstr (natToChars p.lastModified)
      · rcases heo : p.environmentOrder with _ | eo
        · rw [heo] at h4b
          simp at h4b
        · rw [heo] at h4b
          simp only [List.mem_cons, List.not_mem_nil, or_false] at h4b
          subst h4b
          exact hnat eo
    · rcases hfo : p.fileOrder with _ | fo
      · rw [hfo] at h5b
        simp at h5b
      · rw [hfo] at h5b
        simp only [List.mem_cons, List.not_mem_nil, or_false] at h5b
        subst h5b
        exact hnat fo
  · rcases hlo : p.lineOrder with _ | lo
    · rw [hlo] at h6
      simp at h6
    · rw [hlo] at h6
      simp only [List.mem_cons, List.not_mem_nil, or_false] at h6
      subst h6
      exact hnat lo

theorem encodeProp_parse (p : Property) : ∀ f, 11 ≤ f → ∀ rest,
    jparseStep (f + 1) JMode.val (encodeProp p ++ rest)
      = some (.v (jvalOfProp p), rest) := by
  intro f hf rest
  rw [encodeProp_items]
  have hlen := propItems_length p
  exact jobj_parse 0 (propItems p) (propItems_parse p) f (by omega) rest

theorem encodeChange_items (c : BatchChange) (rest : Str) :
    encodeChange c ++ rest
      = '\x7b' :: (fieldsEncode (changeItems c) ++ '\x7d' :: rest) := by
  rcases ho : c.originalProperty with _ | o <;>
    simp [encodeChange, changeItems, fieldsEncode, encStr, escChar, ho]

theorem changeItems_length (c : BatchChange) : (changeItems c).length ≤ 2 := by
  obtain ⟨p, op⟩ := c
  rcases op with _ | o <;> simp [changeItems]

theorem changeItems_parse (c : BatchChange) :
    ∀ it ∈ changeItems c, ∀ f r, 11 ≤ f → noNumExt r = true →
      jparseStep (f + 1) JMode.val (it.2.1 ++ r) = some (.v it.2.2, r) := by
  intro it hit f r hf _
  rcases List.mem_append.mp hit with h1 | h2
  · simp only [List.mem_cons, List.not_mem_nil, or_false] at h1
    subst h1
    exact encodeProp_parse c.property f hf r
  · rcases ho : c.originalProperty with _ | o
    · rw [ho] at h2
      simp at h2
    · rw [ho] at h2
      simp only [List.mem_cons, List.not_mem_nil, or_false] at h2
      subst h2
      exact encodeProp_parse o f hf r

theorem encodeChange_parse (c : BatchChange) : ∀ f, 14 ≤ f → ∀ rest,
    jparseStep (f + 1) JMode.val (encodeChange c ++ rest)
      = some (.v (jvalOfChange c), rest) := by
  intro f hf rest
  rw [encodeChange_items]
  have hlen := changeItems_length c
  exact jobj_parse 11 (changeItems c) (changeItems_parse c) f (by omega) rest

theorem encArr_changes_parse (cs : List BatchChange) :
    ∀ f, 15 + cs.length ≤ f → ∀ rest,
      jparseStep (f + 1) JMode.val (encArr encodeChange cs ++ rest)
        = some (.v (.jarr (cs.map jvalOfChange)), rest) := by
  intro f hf rest
  have hstream : encArr encodeChange cs ++ rest
      = '[' :: (elemsEncode (cs.map (fun c => (encodeChange c, jvalOfChange c)))
          ++ ']' :: rest) := by
    simp [encArr, elemsEncode_map]
  rw [hstream]
  have h := jarr_parse 14 (cs.map (fun c => (encodeChange c, jvalOfChange c)))
    (by
      intro it hit f2 r hf2 hr2
      obtain ⟨c, hc, rfl⟩ := List.mem_map.mp hit
      exact encodeChange_parse c f2 hf2 r)
    (by
      intro it hit
      obtain ⟨c, hc, rfl⟩ := List.mem_map.mp hit
      exact ⟨_, rfl⟩)
    f (by simp; omega) rest
  rw [h]
  simp [List.map_map, Function.comp_def]

theorem encArr_props_parse (ps : List Property) :
    ∀ f, 12 + ps.length ≤ f → ∀ rest,
      jparseStep (f + 1) JMode.val (encArr encodeProp ps ++ rest)
        = some (.v (.jarr (ps.map jvalOfProp)), rest) := by
  intro f hf rest
  have hstream : encArr encodeProp ps ++ rest
      = '[' :: (elemsEncode (ps.map (fun p => (encodeProp p, jvalOfProp p)))
          ++ ']' :: rest) := by
    simp [encArr, elemsEncode_map]
  rw [hstream]
  have h := jarr_parse 11 (ps.map (fun p => (encodeProp p, jvalOfProp p)))
    (by
      intro it hit f2 r hf2 hr2
      obtain ⟨p, hp, rfl⟩ := List.mem_map.mp hit
      exact encodeProp_parse p f2 hf2 r)
    (by
      intro it hit
      obtain ⟨p, hp, rfl⟩ := List.mem_map.mp hit
      exact ⟨_, rfl⟩)
    f (by simp; omega) rest
  rw [h]
  simp [List.map_map, Function.comp_def]

theorem encodeBatchData_items (b : BatchData) (rest : Str) :
    encodeBatchData b ++ rest
      = '\x7b' :: (fieldsEncode (batchItems b) ++ '\x7d' :: rest) := by
  simp [encodeBatchData, batchItems, fieldsEncode, encStr, escChar]

theorem encodeBatchData_parse (b : BatchData) :
    ∀ f, 18 + b.changes.length + b.deletions.length ≤ f → ∀ rest,
      jparseStep (f + 1) JMode.val (encodeBatchData b ++ rest)
        = some (.v (jvalOfBatch b), rest) := by
  intro f hf rest
  rw [encodeBatchData_items]
  have hitems : ∀ it ∈ batchItems b, ∀ f2 r,
      15 + b.changes.length + b.deletions.length ≤ f2 → noNumExt r = true →
      jparseStep (f2 + 1) JMode.val (it.2.1 ++ r) = some (.v it.2.2, r) := by
    intro it hit f2 r hf2 hr2
    simp only [batchItems, List.mem_cons, List.not_mem_nil, or_false] at hit
    rcases hit with rfl | rfl
    · exact encArr_changes_parse b.changes f2 (by omega) r
    · exact encArr_props_parse b.deletions f2 (by omega) r
  have h := jobj_parse (15 + b.changes.length + b.deletions.length)
    (batchItems b) hitems f (by simp [batchItems]; omega) rest
  exact h

theorem encodeBatchData_length (b : BatchData) :
    b.changes.length + b.deletions.length + 20 ≤ (encodeBatchData b).length := by
  have hc := encArrElems_length_ge encodeChange b.changes
    (fun y _ => by
      intro hnil
      exact absurd (congrArg List.length hnil) (by simp [encodeChange]))
  have hd := encArrElems_length_ge encodeProp b.deletions
    (fun y _ => by
      intro hnil
      exact absurd (congrArg List.length hnil) (by simp [encodeProp]))
  simp only [encodeBatchData, encArr, List.length_append, List.length_cons]
  simp at hc hd ⊢
  omega

theorem jparse_encodeBatch (b : BatchData) :
    jparse (encodeBatchData b) = some (jvalOfBatch b) := by
  unfold jparse
  have hlen := encodeBatchData_length b
  have h := encodeBatchData_parse b (4 * (encodeBatchData b).length + 3)
    (by omega) []
  rw [List.append_nil] at h
  rw [h]
  rfl

theorem propOfJ_jval (p : Property) : propOfJ (jvalOfProp p) = some p := by
  obtain ⟨id, env, key, val, dsc, comp, lm, eo, fo, lo⟩ := p
  rcases dsc with _ | d <;> rcases eo with _ | e <;> rcases fo with _ | f2 <;>
    rcases lo with _ | l2 <;>
    simp [propOfJ, jvalOfProp, propItems, reqStrField, optStrField, optNatField,
      jfield, jlookup, jAsStr, jAsNat, parseNatAll_rt]

theorem jtruthy_jvalOfProp (p : Property) : jtruthy (jvalOfProp p) = true := by
  simp [jvalOfProp, jtruthy]

theorem changeOfJ_jval (c : BatchChange) : changeOfJ (jvalOfChange c) = some c := by
  obtain ⟨p, op⟩ := c
  rcases op with _ | o <;>
    simp [changeOfJ, pushCreated, jvalOfChange, changeItems, jfield, jlookup,
      jtruthy_jvalOfProp, propOfJ_jval]

theorem convList_map {α : Type _} (f : JValue → Option α) (g : α → JValue)
    (xs : List α) (h : ∀ x ∈ xs, f (g x) = some x) :
    convList f (xs.map g) = some xs := by
  induction xs with
  | nil => rfl
  | cons x t ih =>
      simp only [List.map_cons, convList, h x (List.mem_cons_self x t),
        ih (fun y hy => h y (List.mem_cons_of_mem x hy))]
      rfl

theorem extractBatch_jval (b : BatchData) : extractBatch (jvalOfBatch b) = some b := by
  obtain ⟨cs, ds⟩ := b
  have hc : convList changeOfJ (cs.map jvalOfChange) = some cs :=
    convList_map changeOfJ jvalOfChange cs (fun x _ => changeOfJ_jval x)
  have hd : convList propOfJ (ds.map jvalOfProp) = some ds :=
    convList_map propOfJ jvalOfProp ds (fun x _ => propOfJ_jval x)
  simp [extractBatch, jvalOfBatch, batchItems, jfield, jlookup, arrField,
    jtruthy, hc, hd]

theorem decodeBatchPayload_rt (b : BatchData) :
    decodeBatchPayload (encodeBatchData b) = some b := by
  simp [decodeBatchPayload, jparse_encodeBatch, extractBatch_jval]

theorem extractBatch_skipped (j : JValue)
    (hc : jfieldSkipped j "changes".data = true)
    (hd : jfieldSkipped j "deletions".data = true) :
    extractBatch j = some ⟨[], []⟩ := by
  rw [extractBatch]
  cases hjc : jfield j "changes".data with
  | none =>
      rw [jfieldSkipped, hjc] at hc
      simp at hc
  | some cf =>
      cases cf with
      | none =>
          cases hjd : jfield j "deletions".data with
          | none =>
              rw [jfieldSkipped, hjd] at hd
              simp at hd
          | some df =>
              cases df with
              | none => simp [arrField]
              | some dv =>
                  rw [jfieldSkipped, hjd] at hd
                  simp only [Bool.not_eq_true'] at hd
                  simp [arrField, hd]
      | some cv =>
          rw [jfieldSkipped, hjc] at hc
          simp only [Bool.not_eq_true'] at hc
          cases hjd : jfield j "deletions".data with
          | none =>
              rw [jfieldSkipped, hjd] at hd
              simp at hd
          | some df =>
              cases df with
              | none => simp [arrField, hc]
              | some dv =>
                  rw [jfieldSkipped, hjd] at hd
                  simp only [Bool.not_eq_true'] at hd
                  simp [arrField, hc, hd]

/-! ### Batch audit entries, the restore resolver, and the batch-save policy -/

/-- `AuditService.createBatchOperationAuditLog`: one `BATCH` entry whose
`newValue` holds the serialized reversible payload and whose `oldValue` holds
the human-readable operation count. -/
def createBatchOperationAuditLog (genId : Str) (now : Nat) (sess : Str)
    (changes deletions : List Property) (customComment : Option Str)
    (originalProperties : Option (List Property)) : AuditLog :=
  let totalOperations := changes.length + deletions.length
  let operationCounts : List Str :=
    (if changes.length > 0 then
      [natToChars changes.length ++ " properties updated/added".data] else []) ++
    (if deletions.length > 0 then
      [natToChars deletions.length ++ " properties deleted".data] else [])
  let defaultComment := "Batch operation: ".data ++ List.intercalate ", ".data operationCounts
  let batchData : BatchData :=
    { changes := changes.map (fun c =>
        { property := c
          originalProperty := originalProperties.bind (fun ops => ops.find? (fun p => p.id == c.id)) })
      deletions := deletions }
  { id := genId
    timestamp := now
    action := .BATCH
    recordId := "batch_".data ++ natToChars now
    propertyKey := "batch_operation_".data ++ natToChars totalOperations ++ "_properties".data
    environment := "multiple".data
    component := "multiple".data
    changeDetails := orTruthy customComment defaultComment
    sessionId := sess
    newValue := some (encodeBatchData batchData)
    oldValue := some (natToChars totalOperations ++ " operations".data) }

/-- The caller-visible state the restore path touches: the property table and
the audit-log table of the persistent store (mirrored by the React state). -/
structure AppState where
  properties : List Property
  auditLogs : List AuditLog
deriving Repr, DecidableEq

/-- `App.handleRestore`: delete every property whose id matches a deletion,
then upsert each restored property (replace the first row with the same id,
or append when no row matches). -/
def appHandleRestore (props : List Property) (restored : List Property)
    (deletions : Option (List Property)) : List Property :=
  let afterDel :=
    match deletions with
    | some ds => ds.foldl (fun acc d => acc.filter (fun p => !(p.id == d.id))) props
    | none => props
  restored.foldl (fun acc r =>
    match acc.findIdx? (fun p => p.id == r.id) with
    | some i => acc.set i r
    | none => acc ++ [r]) afterDel

/-- The per-change inverse of an update inside a batch restore: when the
change carries an `originalProperty`, restore that original with the restore
time as `lastModified` (`restoredProperties.push`). -/
def revertUpdate (now : Nat) (c : BatchChange) : Option Property :=
  c.originalProperty.map (fun o => { o with lastModified := now })

/-- The per-change inverse of a creation inside a batch restore: when the
change carries no `originalProperty`, delete its `property`
(`deletedProperties.push`). -/
def undoCreation (c : BatchChange) : Option Property :=
  match c.originalProperty with
  | some _ => none
  | none => some c.property

theorem undoCreation_eq (c : BatchChange) :
    undoCreation c = if c.originalProperty.isNone then some c.property else none := by
  cases h : c.originalProperty <;> simp [undoCreation, h]

/-- `AuditPage.handleRestore`: invert one audit entry, append the new restore
audit entry, and hand the inverse operations to `App.handleRestore`.  Returns
the new state together with the UI error message, if any (`setError`); an
error leaves the state unchanged. -/
def auditPageRestore (genId : Str) (now : Nat) (sess : Str)
    (entry : AuditLog) (st : AppState) : AppState × Option Str :=
  match entry.action with
  | .BATCH =>
      match decodeBatchPayload ((entry.newValue).getD "\x7b\x7d".data) with
      | none => (st, some "Failed to parse batch operation data".data)
      | some batchData =>
          let restoredProperties :=
            batchData.changes.filterMap (revertUpdate now)
            ++ batchData.deletions.map (fun d => { d with lastModified := now })
          let deletedProperties := batchData.changes.filterMap undoCreation
          let fallback : Property :=
            { id := "batch_restore".data, environment := "multiple".data
              key := "batch_restore".data, value := [], description := some []
              component := "multiple".data, lastModified := now }
          let target := (restoredProperties.head?).getD ((deletedProperties.head?).getD fallback)
          let detail := "Restored batch operation from audit log: ".data ++ entry.id ++
            " (".data ++ natToChars restoredProperties.length ++ " restored, ".data ++
            natToChars deletedProperties.length ++ " deleted)".data
          let restoreAuditLog := createAuditLog genId now sess .RESTORE target none (some detail)
          ({ properties := appHandleRestore st.properties restoredProperties (some deletedProperties)
             auditLogs := st.auditLogs ++ [restoreAuditLog] }, none)
  | .CREATE =>
      let propertyToDelete : Property :=
        { id := entry.recordId, key := entry.propertyKey
          environment := entry.environment, component := entry.component
          value := (entry.newValue).getD []
          description := some ((entry.newDescription).getD [])
          lastModified := now }
      let restoreAuditLog := createAuditLog genId now sess .DELETE propertyToDelete none
        (some ("Restored (deleted) property created in audit log: ".data ++ entry.id))
      ({ properties := appHandleRestore st.properties [] (some [propertyToDelete])
         auditLogs := st.auditLogs ++ [restoreAuditLog] }, none)
  | _ =>
      let restoredProperty : Property :=
        { id := entry.recordId, key := entry.propertyKey
          environment := entry.environment, component := entry.component
          value := (entry.oldValue).getD []
          description := some ((entry.oldDescription).getD [])
          lastModified := now }
      let restoreAuditLog := createAuditLog genId now sess .RESTORE restoredProperty none
        (some ("Restored from audit log: ".data ++ entry.id))
      ({ properties := appHandleRestore st.properties [restoredProperty] none
         auditLogs := st.auditLogs ++ [restoreAuditLog] }, none)

/-- JavaScript truthiness of the optional comment (`if (customComment)`). -/
def truthyStr (o : Option Str) : Bool :=
  match o with
  | some s => !s.isEmpty
  | none => false

/-- `if (customComment) auditLog.changeDetails = customComment`. -/
def overrideComment (c : Option Str) (a : AuditLog) : AuditLog :=
  if truthyStr c then { a with changeDetails := c.getD [] } else a

/-- The audit entries emitted by `App.handleBatchSave` for a save of the given
changes and deletions against the current `properties` list: one precise
CREATE/UPDATE/DELETE entry when the total operation count is exactly one,
otherwise one BATCH entry. -/
def batchSaveAuditLogs (genId : Str) (now : Nat) (sess : Str)
    (properties changes deletions : List Property)
    (customComment : Option Str) : List AuditLog :=
  let existingEnvironments := properties.map (fun p => p.environment)
  let newEnvironments :=
    ((changes.map (fun c => c.environment)).dedup).filter
      (fun e => !(existingEnvironments.contains e))
  let totalOperations := changes.length + deletions.length
  if totalOperations = 1 then
    match deletions with
    | [d] => [overrideComment customComment (createAuditLog genId now sess .DELETE d none none)]
    | _ =>
      match changes with
      | [c] =>
          match properties.find? (fun p => p.id == c.id) with
          | some originalProperty =>
              [overrideComment customComment
                (createAuditLog genId now sess .UPDATE c (some originalProperty) none)]
          | none =>
              let a := createAuditLog genId now sess .CREATE c none none
              if truthyStr customComment then [{ a with changeDetails := customComment.getD [] }]
              else if newEnvironments.contains c.environment then
                [{ a with changeDetails :=
                    "Created property in new environment: ".data ++ c.environment }]
              else [a]
      | _ => []
  else
    [createBatchOperationAuditLog genId now sess changes deletions customComment (some properties)]

/-! ### Store lemmas for the restore resolver -/

theorem find?_upsert (props : List Property) (r : Property) :
    (appHandleRestore props [r] none).find? (fun p => p.id == r.id) = some r := by
  show ((match props.findIdx? (fun p : Property => p.id == r.id) with
        | some i => props.set i r
        | none => props ++ [r]).find? (fun p : Property => p.id == r.id)) = some r
  induction props with
  | nil => simp
  | cons q qs ih =>
      by_cases hq : (q.id == r.id) = true
      · simp [List.findIdx?_cons, hq]
      · rw [List.findIdx?_cons]
        simp only [hq, if_false, List.findIdx?_succ]
        cases hfi : qs.findIdx? (fun p => p.id == r.id) with
        | none =>
            rw [hfi] at ih
            simpa [List.find?_cons, hq] using ih
        | some i =>
            rw [hfi] at ih
            simpa [List.find?_cons, hq, List.set_cons_succ] using ih

theorem find?_after_delete (props : List Property) (d : Property) :
    (appHandleRestore props [] (some [d])).find? (fun p => p.id == d.id) = none := by
  show ((props.filter (fun p => !(p.id == d.id))).find? (fun p => p.id == d.id)) = none
  rw [List.find?_eq_none]
  intro x hx
  have := (List.mem_filter.mp hx).2
  simpa using this

theorem appHandleRestore_nil_nil (props : List Property) :
    appHandleRestore props [] (some []) = props := rfl

/-- Keeping the elements on which an option-valued discriminator is `none`
is a plain filter. -/
theorem filterMap_if_isNone {α : Type _} {β : Type _} (f : α → Option β) (l : List α) :
    l.filterMap (fun c => if (f c).isNone then some c else none)
      = l.filter (fun c => (f c).isNone) := by
  induction l with
  | nil => rfl
  | cons c cs ih => cases hfc : f c <;> simp [List.filterMap_cons, List.filter_cons, hfc, ih]

/-- Splitting a list by an option-valued discriminator preserves its length:
every element lands either in the mapped-some part or in the filtered-none
part. -/
theorem filterMap_opt_split_length {α β γ : Type _} (f : α → Option β)
    (h : β → γ) (l : List α) :
    (l.filterMap (fun c => (f c).map h)).length
      + (l.filter (fun c => (f c).isNone)).length = l.length := by
  induction l with
  | nil => rfl
  | cons c cs ih =>
      cases hfc : f c <;> simp [List.filterMap_cons, List.filter_cons, hfc] <;> omega

/-! ### Claim theorems: the audit engine and the restore resolver -/

/-- C8.  `createAuditLog` fills the four value fields strictly by action:
CREATE populates only the "new" fields, DELETE only the "old" fields, UPDATE
(with an old property) all four, and RESTORE behaves like an UPDATE invoked
without an `oldProperty`: none of the four fields is populated. -/
theorem c8_createAuditLog_value_fields (g : Str) (t : Nat) (s : Str)
    (p : Property) (old : Option Property) (cd : Option Str) :
    ((createAuditLog g t s .CREATE p old cd).newValue = some p.value
      ∧ (createAuditLog g t s .CREATE p old cd).newDescription = p.description
      ∧ (createAuditLog g t s .CREATE p old cd).oldValue = none
      ∧ (createAuditLog g t s .CREATE p old cd).oldDescription = none)
    ∧ ((createAuditLog g t s .DELETE p old cd).oldValue = some p.value
      ∧ (createAuditLog g t s .DELETE p old cd).oldDescription = p.description
      ∧ (createAuditLog g t s .DELETE p old cd).newValue = none
      ∧ (createAuditLog g t s .DELETE p old cd).newDescription = none)
    ∧ (∀ o : Property,
        (createAuditLog g t s .UPDATE p (some o) cd).oldValue = some o.value
      ∧ (createAuditLog g t s .UPDATE p (some o) cd).newValue = some p.value
      ∧ (createAuditLog g t s .UPDATE p (some o) cd).oldDescription = o.description
      ∧ (createAuditLog g t s .UPDATE p (some o) cd).newDescription = p.description)
    ∧ ((createAuditLog g t s .RESTORE p old cd).oldValue
          = (createAuditLog g t s .UPDATE p none cd).oldValue
      ∧ (createAuditLog g t s .RESTORE p old cd).newValue
          = (createAuditLog g t s .UPDATE p none cd).newValue
      ∧ (createAuditLog g t s .RESTORE p old cd).oldValue = none
      ∧ (createAuditLog g t s .RESTORE p old cd).newValue = none
      ∧ (createAuditLog g t s .RESTORE p old cd).oldDescription = none
      ∧ (createAuditLog g t s .RESTORE p old cd).newDescription = none) := by
  refine ⟨?_, ?_, ?_, ?_⟩ <;> cases old <;> simp [createAuditLog]

/-- C1 (amended).  Restoring a single-mutation audit entry inverts the
mutation on the property store: for an UPDATE entry (old property `p0`, new
property `p1`) or a DELETE entry (deleted property `p0`), the restore
succeeds and re-fetching the affected record id yields exactly the
pre-mutation value, and the pre-mutation description except that an absent
description is materialized as the empty string; for a CREATE entry the
restore succeeds and deletes the created row, so the record id fetches
nothing, as before the mutation. -/
theorem c1_single_restore_inverts (gm gr sm sr : Str) (tm now : Nat)
    (p0 p1 : Property) (st : AppState) :
    (let e := createAuditLog gm tm sm .UPDATE p1 (some p0) none
     let r := auditPageRestore gr now sr e st
     r.2 = none ∧
       ∃ q, r.1.properties.find? (fun p => p.id == e.recordId) = some q
         ∧ q.value = p0.value
         ∧ q.description = some ((p0.description).getD []))
    ∧ (let e := createAuditLog gm tm sm .DELETE p0 none none
       let r := auditPageRestore gr now sr e st
       r.2 = none ∧
         ∃ q, r.1.properties.find? (fun p => p.id == e.recordId) = some q
           ∧ q.value = p0.value
           ∧ q.description = some ((p0.description).getD []))
    ∧ (let e := createAuditLog gm tm sm .CREATE p1 none none
       let r := auditPageRestore gr now sr e st
       r.2 = none ∧
         r.1.properties.find? (fun p => p.id == e.recordId) = none) := by
  refine ⟨⟨rfl, ?_⟩, ⟨rfl, ?_⟩, rfl, ?_⟩
  · have h := find?_upsert st.properties
      { id := p1.id, environment := p1.environment, key := p1.key,
        value := p0.value, description := some ((p0.description).getD []),
        component := p1.component, lastModified := now }
    exact ⟨_, h, rfl, rfl⟩
  · have h := find?_upsert st.properties
      { id := p0.id, environment := p0.environment, key := p0.key,
        value := p0.value, description := some ((p0.description).getD []),
        component := p0.component, lastModified := now }
    exact ⟨_, h, rfl, rfl⟩
  · exact find?_after_delete st.properties _

/-- C1 (counterexample to the claim as stated).  For an UPDATE whose old
property has no description (`undefined` in the source), the restored
property's description is the empty string, not the absent pre-mutation
description: re-fetching does not yield *exactly* the pre-mutation
description.  (The value does round-trip exactly.) -/
theorem c1_description_not_exact :
    (let p0 : Property :=
      { id := "prod_db.url".data, environment := "prod".data, key := "db.url".data
        value := "jdbc:prod".data, description := none, component := "env".data
        lastModified := 0 }
     let p1 : Property := { p0 with value := "jdbc:prod2".data, lastModified := 1 }
     let e := createAuditLog "a1".data 1 "s1".data .UPDATE p1 (some p0) none
     let st : AppState := { properties := [p1], auditLogs := [e] }
     let r := auditPageRestore "a2".data 2 "s1".data e st
     (r.1.properties.find? (fun p => p.id == e.recordId)).map Property.description
        = some (some [])
     ∧ (r.1.properties.find? (fun p => p.id == e.recordId)).map Property.value
        = some "jdbc:prod".data
     ∧ p0.description = none
     ∧ (r.1.properties.find? (fun p => p.id == e.recordId)).map Property.description
        ≠ some p0.description) := by
  decide

/-- C2.  Restoring a BATCH entry recording N changes and M deletions decodes
the payload stored in `newValue` back to exactly the recorded data and
produces N + M inverse operations: one upsert of the original (timestamp
refreshed to the restore time) for every change with an original, one delete
of the new property for every change without one, and one upsert (timestamp
refreshed) for every recorded deletion. -/
theorem c2_batch_restore_inverse (g sess g2 sess2 : Str) (t now : Nat)
    (changes deletions : List Property) (cc : Option Str)
    (origs : Option (List Property)) (st : AppState) :
    (let entry := createBatchOperationAuditLog g t sess changes deletions cc origs
     let origOf := fun c : Property =>
       origs.bind (fun ops => ops.find? (fun p => p.id == c.id))
     let upserts :=
       changes.filterMap (fun c => (origOf c).map (fun o => { o with lastModified := now }))
       ++ deletions.map (fun d => { d with lastModified := now })
     let deletes := changes.filter (fun c => (origOf c).isNone)
     decodeBatchPayload ((entry.newValue).getD "\x7b\x7d".data)
        = some ⟨changes.map (fun c => ⟨c, origOf c⟩), deletions⟩
     ∧ (auditPageRestore g2 now sess2 entry st).2 = none
     ∧ (auditPageRestore g2 now sess2 entry st).1.properties
        = appHandleRestore st.properties upserts (some deletes)
     ∧ (auditPageRestore g2 now sess2 entry st).1.auditLogs.length
        = st.auditLogs.length + 1
     ∧ upserts.length + deletes.length = changes.length + deletions.length) := by
  refine ⟨?_, ?_, ?_, ?_, ?_⟩
  · exact decodeBatchPayload_rt _
  · simp only [auditPageRestore, createBatchOperationAuditLog, Option.getD_some,
      decodeBatchPayload_rt]
  · simp only [auditPageRestore, createBatchOperationAuditLog, Option.getD_some,
      decodeBatchPayload_rt, List.filterMap_map, Function.comp_def,
      revertUpdate, undoCreation_eq, filterMap_if_isNone]
  · simp only [auditPageRestore, createBatchOperationAuditLog, Option.getD_some,
      decodeBatchPayload_rt, List.length_append, List.length_cons, List.length_nil]
  · have hsplit := filterMap_opt_split_length
      (fun c : Property => origs.bind (fun ops => ops.find? (fun p => p.id == c.id)))
      (fun o : Property => { o with lastModified := now }) changes
    simp only [] at hsplit
    simp only [List.length_append, List.length_map]
    omega

/-- C4 (amended).  Restoring a BATCH entry whose `newValue` is present but
is not well-formed JSON (so `JSON.parse` throws) reports an error and
mutates no state: the state is returned unchanged, with no upsert, no
delete and no audit append.  A present `newValue` that *is* well-formed
JSON but carries no truthy `changes` or `deletions` member — for example
`'\x7b"foo":1\x7d'`, `'[]'` or `'5'` — is instead processed silently as an
empty batch: no error is reported and no property changes, but a RESTORE
summary audit entry is appended.  A missing `newValue` takes the same
silent path through the `'\x7b\x7d'` fallback text. -/
theorem c4_bad_payload_behaviour (g sess : Str) (now : Nat)
    (entry : AuditLog) (st : AppState) :
    (entry.action = .BATCH → ∀ v, entry.newValue = some v →
      jparse v = none →
      auditPageRestore g now sess entry st
        = (st, some "Failed to parse batch operation data".data))
    ∧ (entry.action = .BATCH → ∀ v j, entry.newValue = some v →
      jparse v = some j →
      jfieldSkipped j "changes".data = true →
      jfieldSkipped j "deletions".data = true →
      (auditPageRestore g now sess entry st).2 = none
      ∧ (auditPageRestore g now sess entry st).1.properties = st.properties
      ∧ (auditPageRestore g now sess entry st).1.auditLogs.length
          = st.auditLogs.length + 1)
    ∧ (entry.action = .BATCH → entry.newValue = none →
      (auditPageRestore g now sess entry st).2 = none
      ∧ (auditPageRestore g now sess entry st).1.properties = st.properties
      ∧ (auditPageRestore g now sess entry st).1.auditLogs.length
          = st.auditLogs.length + 1) := by
  refine ⟨?_, ?_, ?_⟩
  · intro ha v hv hparse
    have hdec : decodeBatchPayload v = none := by
      simp [decodeBatchPayload, hparse]
    simp [auditPageRestore, ha, hv, hdec]
  · intro ha v j hv hparse hc hd
    have hdec : decodeBatchPayload v = some ⟨[], []⟩ := by
      simp [decodeBatchPayload, hparse, extractBatch_skipped j hc hd]
    refine ⟨?_, ?_, ?_⟩ <;>
      simp [auditPageRestore, ha, hv, hdec, revertUpdate, undoCreation,
        appHandleRestore_nil_nil]
  · intro ha hv
    have hdec : decodeBatchPayload ['\x7b', '\x7d'] = some ⟨[], []⟩ := by decide
    refine ⟨?_, ?_, ?_⟩ <;>
      simp [auditPageRestore, ha, hv, hdec, revertUpdate, undoCreation,
        appHandleRestore_nil_nil]

/-- C4 witness: a concrete non-JSON payload hits the error path with the
state unchanged; a concrete well-formed JSON payload of the wrong shape
and a concrete missing payload both take the silent empty-batch path,
appending one RESTORE entry. -/
theorem c4_bad_payload_behaviour_witness :
    (let ebad : AuditLog := {
        id := "b1".data, timestamp := 0, action := .BATCH
        recordId := "batch_0".data, propertyKey := "batch_operation_2_properties".data
        environment := "multiple".data, component := "multiple".data
        newValue := some "not json".data, oldValue := some "2 operations".data
        changeDetails := "Batch operation".data, sessionId := "s".data }
     let eshape : AuditLog :=
       { ebad with id := "b3".data, newValue := some "\x7b\"foo\":1\x7d".data }
     let emiss : AuditLog := { ebad with id := "b2".data, newValue := none }
     let st : AppState := { properties := [], auditLogs := [ebad, emiss] }
     auditPageRestore "g".data 1 "s".data ebad st
        = (st, some "Failed to parse batch operation data".data)
     ∧ ((auditPageRestore "g".data 1 "s".data eshape st).2 = none
        ∧ (auditPageRestore "g".data 1 "s".data eshape st).1.properties
            = st.properties
        ∧ (auditPageRestore "g".data 1 "s".data eshape st).1.auditLogs.length
            = st.auditLogs.length + 1)
     ∧ ((auditPageRestore "g".data 1 "s".data emiss st).2 = none
        ∧ (auditPageRestore "g".data 1 "s".data emiss st).1.properties
            = st.properties
        ∧ (auditPageRestore "g".data 1 "s".data emiss st).1.auditLogs.length
            = st.auditLogs.length + 1)) := by
  refine ⟨(c4_bad_payload_behaviour "g".data "s".data 1 _ _).1 rfl _ rfl rfl,
    (c4_bad_payload_behaviour "g".data "s".data 1 _ _).2.1 rfl _
      (.jobj [("foo".data, JValue.jnum "1".data)]) rfl rfl rfl rfl,
    (c4_bad_payload_behaviour "g".data "s".data 1 _ _).2.2 rfl rfl⟩

/-- C4 (counterexample to the claim as stated).  A BATCH entry whose payload
is missing — explicitly included in the claim — does not surface an error:
the restore succeeds and even appends a new RESTORE audit entry. -/
theorem c4_missing_payload_not_error :
    (let e : AuditLog := {
        id := "b1".data, timestamp := 0, action := .BATCH
        recordId := "batch_0".data, propertyKey := "batch_operation_2_properties".data
        environment := "multiple".data, component := "multiple".data
        newValue := none, oldValue := some "2 operations".data
        changeDetails := "Batch operation".data, sessionId := "s".data }
     let st : AppState := { properties := [], auditLogs := [e] }
     let r := auditPageRestore "g2".data 1 "s".data e st
     e.newValue = none ∧ r.2 = none
       ∧ r.1.auditLogs.length = st.auditLogs.length + 1) := by
  decide

/-- `overrideComment` never changes the action of an entry. -/
theorem overrideComment_action (c : Option Str) (a : AuditLog) :
    (overrideComment c a).action = a.action := by
  unfold overrideComment
  split <;> rfl

/-- `createAuditLog` records exactly the requested action. -/
theorem createAuditLog_action (g : Str) (t : Nat) (s : Str) (act : AuditAction)
    (p : Property) (old : Option Property) (cd : Option Str) :
    (createAuditLog g t s act p old cd).action = act := by
  cases act <;> cases old <;> rfl

/-- C6.  The batch-save engine emits the precise single action when the total
operation count is exactly one — DELETE for the lone deletion, UPDATE for the
lone change with an existing original, CREATE for the lone change without one
— and exactly one BATCH entry when the count exceeds one. -/
theorem c6_single_op_precise_action (g sess : Str) (now : Nat)
    (props changes deletions : List Property) (cc : Option Str) :
    (changes.length + deletions.length = 1 →
      ∃ a, batchSaveAuditLogs g now sess props changes deletions cc = [a]
        ∧ a.action ≠ .BATCH
        ∧ ((∃ d, deletions = [d] ∧ a.action = .DELETE)
          ∨ (∃ c o, changes = [c]
              ∧ props.find? (fun p => p.id == c.id) = some o
              ∧ a.action = .UPDATE)
          ∨ (∃ c, changes = [c]
              ∧ props.find? (fun p => p.id == c.id) = none
              ∧ a.action = .CREATE)))
    ∧ (changes.length + deletions.length > 1 →
      ∃ a, batchSaveAuditLogs g now sess props changes deletions cc = [a]
        ∧ a.action = .BATCH) := by
  constructor
  · intro h1
    match deletions, changes, h1 with
    | [d], [], _ =>
        have hlog : batchSaveAuditLogs g now sess props [] [d] cc
            = [overrideComment cc (createAuditLog g now sess .DELETE d none none)] := by
          simp [batchSaveAuditLogs]
        refine ⟨_, hlog, ?_, Or.inl ⟨d, rfl, ?_⟩⟩ <;>
          simp [overrideComment_action, createAuditLog_action]
    | [], [c], _ =>
        cases hf : props.find? (fun p => p.id == c.id) with
        | some o =>
            have hlog : batchSaveAuditLogs g now sess props [c] [] cc
                = [overrideComment cc
                    (createAuditLog g now sess .UPDATE c (some o) none)] := by
              simp [batchSaveAuditLogs, hf]
            refine ⟨_, hlog, ?_, Or.inr (Or.inl ⟨c, o, rfl, hf, ?_⟩)⟩ <;>
              simp [overrideComment_action, createAuditLog_action]
        | none =>
            have hsing : ∃ a, batchSaveAuditLogs g now sess props [c] [] cc = [a]
                ∧ a.action = .CREATE := by
              simp only [batchSaveAuditLogs, hf]
              norm_num
              split
              · exact ⟨_, rfl, rfl⟩
              · split
                · exact ⟨_, rfl, rfl⟩
                · exact ⟨_, rfl, createAuditLog_action _ _ _ _ _ _ _⟩
            obtain ⟨a, ha, hact⟩ := hsing
            exact ⟨a, ha, by rw [hact]; decide, Or.inr (Or.inr ⟨c, rfl, hf, hact⟩)⟩
  · intro h2
    have hne : ¬(changes.length + deletions.length = 1) := by omega
    refine ⟨createBatchOperationAuditLog g now sess changes deletions cc (some props),
      ?_, rfl⟩
    simp only [batchSaveAuditLogs, if_neg hne]

/-- C6 witness: concrete single-operation saves produce a DELETE, an UPDATE
and a CREATE entry respectively, and a concrete two-operation save produces
one BATCH entry. -/
theorem c6_single_op_precise_action_witness :
    (let p : Property := {
        id := "prod_k".data, environment := "prod".data
        key := "k".data, value := "v".data, description := some "d".data
        component := "env".data, lastModified := 0 }
     let q : Property := { p with value := "v2".data }
     ([q].length + ([] : List Property).length = 1
       ∧ ∃ a, batchSaveAuditLogs "g".data 1 "s".data [p] [q] [] none = [a]
         ∧ a.action ≠ .BATCH
         ∧ ((∃ d, ([] : List Property) = [d] ∧ a.action = .DELETE)
           ∨ (∃ c o, [q] = [c]
               ∧ [p].find? (fun r => r.id == c.id) = some o
               ∧ a.action = .UPDATE)
           ∨ (∃ c, [q] = [c]
               ∧ [p].find? (fun r => r.id == c.id) = none
               ∧ a.action = .CREATE)))
     ∧ ([q].length + [p].length > 1
       ∧ ∃ a, batchSaveAuditLogs "g".data 1 "s".data [p] [q] [p] none = [a]
         ∧ a.action = .BATCH)) := by
  refine ⟨⟨by decide, (c6_single_op_precise_action "g".data "s".data 1 _ _ _ none).1 (by decide)⟩,
    ⟨by decide, (c6_single_op_precise_action "g".data "s".data 1 _ _ _ none).2 (by decide)⟩⟩

/-! ### The properties text codec

`PropertiesFileService.parsePropertiesFileWithDescriptions` /
`parsePropertiesFile` and `DeploymentService.generatePropertiesFileContent`.
Lines are obtained with `content.split('\n')` and joined with
`lines.join('\n')`; both are embedded explicitly on `Str`. -/

/-- JavaScript `content.split('\n')`. -/
def splitNl : Str → List Str
  | [] => [[]]
  | c :: cs =>
      match splitNl cs with
      | [] => [[c]]
      | h :: t => if c = '\n' then [] :: h :: t else (c :: h) :: t

/-- JavaScript `lines.join('\n')`. -/
def joinNl : List Str → Str
  | [] => []
  | [l] => l
  | l :: ls => l ++ '\n' :: joinNl ls

/-- A trimmed line that starts a comment (`#` or `!`). -/
def isComment (l : Str) : Bool :=
  match l with
  | c :: _ => c = '#' || c = '!'
  | [] => false

/-- `line.search(/[=:]/)`: index of the first separator, if any. -/
def findSep (l : Str) : Option Nat :=
  l.findIdx? (fun c => c == '=' || c == ':')

/-- One parsed entry of `parsePropertiesFileWithDescriptions`. -/
structure PEntry where
  key : Str
  value : Str
  description : Str
  lineNumber : Nat
deriving Repr, DecidableEq

/-- The backward scan of `parsePropertiesFileWithDescriptions`: from line
`i - 1` downward, skip blank lines and return the index of the nearest
non-blank line above `i`, if any. -/
def scanBackIdx (lines : List Str) : Nat → Option Nat
  | 0 => none
  | j + 1 =>
      if trimStr (lines.getD j []) = [] then scanBackIdx lines j else some j

/-- The dead-code guard of the source: is there a property line strictly
between lines `j` and `i`? -/
def hasPropBetween (lines : List Str) (j i : Nat) : Bool :=
  (List.range' (j + 1) (i - (j + 1))).any (fun k =>
    let b := trimStr (lines.getD k [])
    b ≠ [] && !isComment b && (findSep b).isSome)

/-- The description attached to the property at line `i`: the text of the
nearest preceding non-blank line when it is a comment (and no property line
sits between, which the backward scan makes vacuous), else empty. -/
def descriptionAt (lines : List Str) (i : Nat) : Str :=
  match scanBackIdx lines i with
  | none => []
  | some j =>
      let commentLine := trimStr (lines.getD j [])
      if isComment commentLine then
        (if hasPropBetween lines j i then [] else trimStr (commentLine.drop 1))
      else []

/-- The line-local part of one loop iteration of
`parsePropertiesFileWithDescriptions`: given the trimmed line, the
description to attach and the 1-based line number, produce the entry. -/
def lineEntry (line : Str) (desc : Str) (n : Nat) : Option PEntry :=
  if line = [] then none
  else if isComment line then none
  else
    match findSep line with
    | none => none
    | some sep =>
        let key := trimStr (line.take sep)
        let value := trimStr (line.drop (sep + 1))
        if key = [] then none
        else some ⟨key, value, desc, n⟩

/-- The entry produced by loop iteration `i` of
`parsePropertiesFileWithDescriptions`, if any. -/
def entryAt (lines : List Str) (i : Nat) : Option PEntry :=
  lineEntry (trimStr (lines.getD i [])) (descriptionAt lines i) (i + 1)

/-- The whole line loop of `parsePropertiesFileWithDescriptions`. -/
def parseLinesIdx (lines : List Str) : List PEntry :=
  (List.range lines.length).filterMap (entryAt lines)

/-- `PropertiesFileService.parsePropertiesFileWithDescriptions`. -/
def parsePropertiesFileWithDescriptions (content : Str) : List PEntry :=
  parseLinesIdx (splitNl content)

/-- JavaScript `properties[key] = value` on a `Record<string, string>`
(insertion order preserved, existing key overwritten in place). -/
def recordSet (m : List (Str × Str)) (k v : Str) : List (Str × Str) :=
  if m.any (fun kv => kv.1 == k) then
    m.map (fun kv => if kv.1 == k then (k, v) else kv)
  else m ++ [(k, v)]

/-- One loop iteration of `parsePropertiesFile`. -/
def parseFileStep (props : List (Str × Str)) (line : Str) : List (Str × Str) :=
  let t := trimStr line
  if t = [] then props
  else if isComment t then props
  else
    match findSep t with
    | none => props
    | some sep =>
        let key := trimStr (t.take sep)
        let value := trimStr (t.drop (sep + 1))
        if key ≠ [] then recordSet props key value else props

/-- `PropertiesFileService.parsePropertiesFile` (the plain key/value
variant). -/
def parsePropertiesFile (content : Str) : List (Str × Str) :=
  (splitNl content).foldl parseFileStep []

/-- Lexicographic character comparison standing in for
`String.prototype.localeCompare` (sign only). -/
def strCmp : Str → Str → Int
  | [], [] => 0
  | [], _ :: _ => -1
  | _ :: _, [] => 1
  | a :: as, b :: bs =>
      if a.toNat < b.toNat then -1
      else if b.toNat < a.toNat then 1
      else strCmp as bs

/-- The sort comparator of `generatePropertiesFileContent`: file order then
line order when present, order-information first, key comparison as the
fallback. -/
def sortCmp (a b : Property) : Int :=
  match a.lineOrder, b.lineOrder with
  | some la, some lb =>
      if a.fileOrder ≠ b.fileOrder then
        (a.fileOrder.getD 0 : Int) - (b.fileOrder.getD 0 : Int)
      else (la : Int) - (lb : Int)
  | some _, none => -1
  | none, some _ => 1
  | none, none => strCmp a.key b.key

/-- Insert into a sorted list, keeping earlier elements first on ties.
Models one element of `Array.prototype.sort`'s result; only the permutation
property of the sort is relied upon. -/
def insertByCmp (cmp : α → α → Int) (x : α) : List α → List α
  | [] => [x]
  | y :: ys => if cmp y x ≤ 0 then y :: insertByCmp cmp x ys else x :: y :: ys

/-- A comparison sort standing in for `Array.prototype.sort(comparator)`. -/
def sortByCmp (cmp : α → α → Int) : List α → List α
  | [] => []
  | x :: xs => insertByCmp cmp x (sortByCmp cmp xs)

/-- The body loop of `generatePropertiesFileContent`: emit a blank separator
when the file order changes (`lastFileOrder` starts at `-1`), a `# description`
line for a truthy description, the `key=value` line and a trailing blank. -/
def bodyLines : Int → List Property → List Str
  | _, [] => []
  | lastFO, p :: rest =>
      let sep : List Str :=
        match p.fileOrder with
        | some fo => if (fo : Int) ≠ lastFO ∧ lastFO ≠ -1 then [[]] else []
        | none => []
      let newLast : Int :=
        match p.fileOrder with
        | some fo => (fo : Int)
        | none => lastFO
      let descLines : List Str :=
        match p.description with
        | some d => if d = [] then [] else ["# ".data ++ d]
        | none => []
      sep ++ descLines ++ [p.key ++ '=' :: p.value] ++ [[]] ++ bodyLines newLast rest

/-- The line list of `generatePropertiesFileContent`: timestamp header,
fixed comment, blank line, then the sorted property blocks. -/
def serializeLines (ts : Str) (props : List Property) : List Str :=
  ["# Generated on ".data ++ ts, "# Environment Properties".data, []]
  ++ bodyLines (-1) (sortByCmp sortCmp props)

/-- `DeploymentService.generatePropertiesFileContent` (the `new Date()`
timestamp string is the `ts` parameter). -/
def generatePropertiesFileContent (ts : Str) (props : List Property) : Str :=
  joinNl (serializeLines ts props)

/-! ### Split / join and trim lemmas -/

theorem splitNl_ne_nil (s : Str) : splitNl s ≠ [] := by
  cases s with
  | nil => simp [splitNl]
  | cons c cs =>
      unfold splitNl
      cases splitNl cs
      · simp
      · simp
        split <;> simp

theorem splitNl_no_nl (l : Str) (h : '\n' ∉ l) : splitNl l = [l] := by
  induction l with
  | nil => rfl
  | cons c cs ih =>
      have hc : c ≠ '\n' := fun hc => h (hc ▸ List.mem_cons_self c cs)
      have := ih (fun hm => h (List.mem_cons_of_mem c hm))
      unfold splitNl
      rw [this]
      simp [hc]

theorem splitNl_append_nl (l rest : Str) (h : '\n' ∉ l) :
    splitNl (l ++ '\n' :: rest) = l :: splitNl rest := by
  induction l with
  | nil =>
      simp only [List.nil_append]
      cases hsp : splitNl rest with
      | nil => exact absurd hsp (splitNl_ne_nil rest)
      | cons a t =>
          rw [splitNl, hsp]
          simp
  | cons c cs ih =>
      have hc : c ≠ '\n' := fun hc => h (hc ▸ List.mem_cons_self c cs)
      have hih := ih (fun hm => h (List.mem_cons_of_mem c hm))
      show splitNl (c :: (cs ++ '\n' :: rest)) = (c :: cs) :: splitNl rest
      rw [splitNl, hih]
      simp [hc]

theorem splitNl_joinNl (ls : List Str) (hne : ls ≠ [])
    (h : ∀ l ∈ ls, '\n' ∉ l) : splitNl (joinNl ls) = ls := by
  induction ls with
  | nil => exact absurd rfl hne
  | cons l ls ih =>
      cases ls with
      | nil => exact splitNl_no_nl l (h l (List.mem_cons_self l []))
      | cons l2 ls2 =>
          show splitNl (l ++ '\n' :: joinNl (l2 :: ls2)) = l :: l2 :: ls2
          rw [splitNl_append_nl l _ (h l (List.mem_cons_self l _))]
          rw [ih (by simp) (fun x hx => h x (List.mem_cons_of_mem l hx))]

theorem dropWhile_length_le {α : Type _} (p : α → Bool) (l : List α) :
    (l.dropWhile p).length ≤ l.length := by
  induction l with
  | nil => simp
  | cons c cs ih =>
      rw [List.dropWhile_cons]
      split
      · exact Nat.le_trans ih (by simp)
      · simp

theorem head_not_of_dropWhile_eq_self {α : Type _} {p : α → Bool} {c : α} {l : List α}
    (h : List.dropWhile p (c :: l) = c :: l) : p c = false := by
  by_cases hp : p c = true
  · rw [List.dropWhile_cons, if_pos hp] at h
    have hlen := dropWhile_length_le p l
    rw [h] at hlen
    simp at hlen
  · simpa using hp

theorem trimSelf_parts (s : Str) (h : trimStr s = s) :
    s.dropWhile isWS = s ∧ s.reverse.dropWhile isWS = s.reverse := by
  have e1 : trimStr s = ((s.dropWhile isWS).reverse.dropWhile isWS).reverse := rfl
  have hlen : s.length ≤ (s.dropWhile isWS).length := by
    have l2 := dropWhile_length_le isWS (s.dropWhile isWS).reverse
    have l3 : ((s.dropWhile isWS).reverse).length = (s.dropWhile isWS).length :=
      List.length_reverse _
    have l4 : (trimStr s).length = s.length := by rw [h]
    rw [e1] at l4
    rw [List.length_reverse] at l4
    omega
  have hld : s.dropWhile isWS = s := by
    have hsplit := List.takeWhile_append_dropWhile isWS s
    have hlen2 := congrArg List.length hsplit
    rw [List.length_append] at hlen2
    have htw : s.takeWhile isWS = [] := by
      apply List.eq_nil_of_length_eq_zero
      have := dropWhile_length_le isWS s
      omega
    rw [htw, List.nil_append] at hsplit
    exact hsplit
  refine ⟨hld, ?_⟩
  have e2 : trimStr s = (s.reverse.dropWhile isWS).reverse := by rw [e1, hld]
  rw [h] at e2
  have e3 := congrArg List.reverse e2
  simpa using e3.symm

theorem trim_of_parts (s : Str) (h1 : s.dropWhile isWS = s)
    (h2 : s.reverse.dropWhile isWS = s.reverse) : trimStr s = s := by
  simp [trimStr, h1, h2]

theorem ldrop_append {p : Char → Bool} (a b : Str) (ha : a ≠ [])
    (h : a.dropWhile p = a) : (a ++ b).dropWhile p = a ++ b := by
  cases a with
  | nil => exact absurd rfl ha
  | cons c t =>
      have hc := head_not_of_dropWhile_eq_self h
      simp [List.dropWhile_cons, hc]

theorem rtrim_append (a b : Str) (hb : b ≠ [])
    (h : b.reverse.dropWhile isWS = b.reverse) :
    (a ++ b).reverse.dropWhile isWS = (a ++ b).reverse := by
  rw [List.reverse_append]
  exact ldrop_append b.reverse a.reverse (by simpa using hb) h

theorem trim_keyval (key value : Str) (hk : trimStr key = key) (hkne : key ≠ [])
    (hv : trimStr value = value) :
    trimStr (key ++ '=' :: value) = key ++ '=' :: value := by
  obtain ⟨hk1, hk2⟩ := trimSelf_parts key hk
  apply trim_of_parts
  · exact ldrop_append key ('=' :: value) hkne hk1
  · cases hvv : value with
    | nil =>
        subst hvv
        have : (key ++ ['=']).reverse.dropWhile isWS = (key ++ ['=']).reverse :=
          rtrim_append key ['='] (by simp) (by simp [isWS])
        simpa using this
    | cons v vs =>
        obtain ⟨hv1, hv2⟩ := trimSelf_parts value hv
        rw [← hvv]
        apply rtrim_append
        · simp [hvv]
        · show ('=' :: value).reverse.dropWhile isWS = ('=' :: value).reverse
          have : ('=' :: value).reverse = value.reverse ++ ['='] := by simp
          rw [this]
          rw [List.dropWhile_append]
          rw [hv2]
          have hvne : value.reverse ≠ [] := by simp [hvv]
          simp [List.isEmpty_iff, hvne]

theorem trim_hashline (d : Str) (hd : trimStr d = d) (hdne : d ≠ []) :
    trimStr ('#' :: ' ' :: d) = '#' :: ' ' :: d := by
  obtain ⟨hd1, hd2⟩ := trimSelf_parts d hd
  apply trim_of_parts
  · simp [List.dropWhile_cons, isWS]
  · show ('#' :: ' ' :: d).reverse.dropWhile isWS = ('#' :: ' ' :: d).reverse
    have hsh : ('#' :: ' ' :: d) = ['#', ' '] ++ d := rfl
    rw [hsh]
    exact rtrim_append ['#', ' '] d hdne hd2

theorem trim_space_cons (d : Str) (hd : trimStr d = d) (_hdne : d ≠ []) :
    trimStr (' ' :: d) = d := by
  obtain ⟨hd1, hd2⟩ := trimSelf_parts d hd
  show ((((' ' :: d).dropWhile isWS).reverse).dropWhile isWS).reverse = d
  rw [List.dropWhile_cons]
  have : isWS ' ' = true := by decide
  rw [if_pos this, hd1, hd2]
  simp

theorem trim_head_hash (r : Str) :
    ∃ t, trimStr ('#' :: r) = '#' :: t := by
  have h1 : ('#' :: r).dropWhile isWS = '#' :: r := by
    simp [List.dropWhile_cons, isWS]
  show ∃ t, ((('#' :: r).dropWhile isWS).reverse.dropWhile isWS).reverse = '#' :: t
  rw [h1]
  have h2 : ('#' :: r).reverse = r.reverse ++ ['#'] := by simp
  rw [h2, List.dropWhile_append]
  split
  · exact ⟨[], by simp [isWS]⟩
  · exact ⟨(r.reverse.dropWhile isWS).reverse, by simp⟩

/-! ### A single-pass reformulation of the line loop

The source loop looks backward from each property line for the nearest
non-blank line.  The equivalent single pass below carries the trimmed text
of the last non-blank line seen; `parseLinesIdx_eq_fold` proves the
equivalence, which the codec theorems use. -/

/-- Description derived from the trimmed previous non-blank line. -/
def descOfPrev : Option Str → Str
  | none => []
  | some c => if isComment c then trimStr (c.drop 1) else []

/-- The trimmed text of the last non-blank line of a prefix. -/
def lastNB (P : List Str) : Option Str :=
  P.foldl (fun acc l => if trimStr l = [] then acc else some (trimStr l)) none

/-- Single-pass equivalent of the parser loop. -/
def parseFoldAux : List Str → Option Str → Nat → List PEntry
  | [], _, _ => []
  | l :: rest, prev, i =>
      let t := trimStr l
      (lineEntry t (descOfPrev prev) (i + 1)).toList
        ++ parseFoldAux rest (if t = [] then prev else some t) (i + 1)

theorem lastNB_append_singleton (P : List Str) (l : Str) :
    lastNB (P ++ [l]) = if trimStr l = [] then lastNB P else some (trimStr l) := by
  simp [lastNB, List.foldl_append]

theorem getD_append_length (P : List Str) (l : Str) (rest : List Str) :
    (P ++ l :: rest).getD P.length [] = l := by
  induction P with
  | nil => rfl
  | cons q Q ih => simpa using ih

theorem scanBack_between_blank (L : List Str) (i j : Nat)
    (h : scanBackIdx L i = some j) :
    j < i ∧ trimStr (L.getD j []) ≠ []
      ∧ ∀ k, j < k → k < i → trimStr (L.getD k []) = [] := by
  induction i with
  | zero => simp [scanBackIdx] at h
  | succ m ih =>
      rw [scanBackIdx] at h
      by_cases hm : trimStr (L.getD m []) = []
      · rw [if_pos hm] at h
        obtain ⟨h1, h2, h3⟩ := ih h
        refine ⟨by omega, h2, ?_⟩
        intro k hk1 hk2
        by_cases hkm : k = m
        · subst hkm; exact hm
        · exact h3 k hk1 (by omega)
      · rw [if_neg hm] at h
        injection h with h
        subst h
        exact ⟨Nat.lt_succ_self m, hm, fun k hk1 hk2 => by omega⟩

theorem scanBack_none_blank (L : List Str) (i : Nat)
    (h : scanBackIdx L i = none) : ∀ k, k < i → trimStr (L.getD k []) = [] := by
  induction i with
  | zero => intro k hk; omega
  | succ m ih =>
      rw [scanBackIdx] at h
      by_cases hm : trimStr (L.getD m []) = []
      · rw [if_pos hm] at h
        intro k hk
        by_cases hkm : k = m
        · subst hkm; exact hm
        · exact ih h k (by omega)
      · rw [if_neg hm] at h
        exact absurd h (by simp)

theorem scanBackIdx_eq_some (L : List Str) (i j : Nat) (hj : j < i)
    (hnb : trimStr (L.getD j []) ≠ [])
    (hblank : ∀ k, j < k → k < i → trimStr (L.getD k []) = []) :
    scanBackIdx L i = some j := by
  induction i with
  | zero => omega
  | succ m ih =>
      rw [scanBackIdx]
      by_cases hjm : j = m
      · subst hjm
        rw [if_neg hnb]
      · have hjm2 : j < m := by omega
        have hm : trimStr (L.getD m []) = [] := hblank m hjm2 (Nat.lt_succ_self m)
        rw [if_pos hm]
        exact ih hjm2 (fun k hk1 hk2 => hblank k hk1 (by omega))

theorem hasPropBetween_false_of_blank (L : List Str) (j i : Nat)
    (hblank : ∀ k, j < k → k < i → trimStr (L.getD k []) = []) :
    hasPropBetween L j i = false := by
  rw [hasPropBetween]
  rw [List.any_eq_false]
  intro k hk
  rw [List.mem_range'] at hk
  obtain ⟨hk1, hk2⟩ := hk
  have hblk : trimStr (L.getD k []) = [] := by
    apply hblank k (by omega) (by omega)
  simp only [hblk]
  decide

theorem lastNB_eq_scanBack (P : List Str) : ∀ rest : List Str,
    lastNB P = (scanBackIdx (P ++ rest) P.length).map
      (fun j => trimStr ((P ++ rest).getD j [])) := by
  induction P using List.reverseRecOn with
  | nil => intro rest; rfl
  | append_singleton Q l ih =>
      intro rest
      rw [lastNB_append_singleton]
      have hlen : (Q ++ [l]).length = Q.length + 1 := by simp
      rw [hlen, scanBackIdx]
      have hg : ((Q ++ [l]) ++ rest).getD Q.length [] = l := by
        rw [List.append_assoc]
        exact getD_append_length Q l rest
      rw [hg]
      by_cases hl : trimStr l = []
      · rw [if_pos hl, if_pos hl]
        have := ih ([l] ++ rest)
        rw [← List.append_assoc] at this
        exact this
      · rw [if_neg hl, if_neg hl]
        have hmap : (some Q.length).map
              (fun j => trimStr (((Q ++ [l]) ++ rest).getD j []))
            = some (trimStr (((Q ++ [l]) ++ rest).getD Q.length [])) := rfl
        rw [hmap, hg]

theorem descriptionAt_prefix (P rest : List Str) :
    descriptionAt (P ++ rest) P.length = descOfPrev (lastNB P) := by
  rw [descriptionAt]
  cases hs : scanBackIdx (P ++ rest) P.length with
  | none =>
      have hlast := lastNB_eq_scanBack P rest
      rw [hs] at hlast
      simp at hlast
      rw [hlast]
      rfl
  | some j =>
      have hlast := lastNB_eq_scanBack P rest
      rw [hs] at hlast
      simp at hlast
      obtain ⟨_, _, hblank⟩ := scanBack_between_blank _ _ _ hs
      rw [hlast]
      simp [descOfPrev, hasPropBetween_false_of_blank _ _ _ hblank]

theorem parseFrom_eq (rest : List Str) : ∀ P : List Str,
    (List.range' P.length rest.length).filterMap (entryAt (P ++ rest))
      = parseFoldAux rest (lastNB P) P.length := by
  induction rest with
  | nil => intro P; rfl
  | cons l rest ih =>
      intro P
      rw [List.length_cons, List.range'_succ, List.filterMap_cons]
      have hentry : entryAt (P ++ l :: rest) P.length
          = lineEntry (trimStr l) (descOfPrev (lastNB P)) (P.length + 1) := by
        rw [entryAt, getD_append_length, descriptionAt_prefix P (l :: rest)]
      have htail : (List.range' (P.length + 1) rest.length).filterMap
            (entryAt (P ++ l :: rest))
          = parseFoldAux rest (if trimStr l = [] then lastNB P else some (trimStr l))
              (P.length + 1) := by
        have hP : P ++ l :: rest = (P ++ [l]) ++ rest := by
          rw [List.append_assoc]
          rfl
        have hlen : P.length + 1 = (P ++ [l]).length := by simp
        rw [hP, hlen, ih (P ++ [l]), lastNB_append_singleton, ← hlen]
      rw [parseFoldAux]
      cases hle : lineEntry (trimStr l) (descOfPrev (lastNB P)) (P.length + 1) with
      | none =>
          rw [hentry, hle, htail]
          simp [Option.toList]
      | some e =>
          rw [hentry, hle, htail]
          simp [Option.toList]

theorem parseLinesIdx_eq_fold (lines : List Str) :
    parseLinesIdx lines = parseFoldAux lines none 0 := by
  rw [parseLinesIdx, List.range_eq_range']
  have := parseFrom_eq lines []
  simpa using this

/-! ### Claim theorems: the text codec -/

theorem lineEntry_key_ne (t d : Str) (n : Nat) (e : PEntry)
    (h : lineEntry t d n = some e) : e.key ≠ [] := by
  unfold lineEntry at h
  split at h
  · exact absurd h (by simp)
  · split at h
    · exact absurd h (by simp)
    · split at h
      · exact absurd h (by simp)
      · simp only at h
        split at h
        · exact absurd h (by simp)
        · injection h with h
          subst h
          assumption

theorem lineEntry_desc (t d : Str) (n : Nat) (e : PEntry)
    (h : lineEntry t d n = some e) : e.description = d := by
  unfold lineEntry at h
  split at h
  · exact absurd h (by simp)
  · split at h
    · exact absurd h (by simp)
    · split at h
      · exact absurd h (by simp)
      · simp only at h
        split at h
        · exact absurd h (by simp)
        · injection h with h
          subst h
          rfl

theorem recordSet_keys (m : List (Str × Str)) (k v : Str)
    (h : ∀ kv ∈ m, kv.1 ≠ []) (hk : k ≠ []) :
    ∀ kv ∈ recordSet m k v, kv.1 ≠ [] := by
  intro kv hkv
  unfold recordSet at hkv
  split at hkv
  · obtain ⟨orig, horig, heq⟩ := List.mem_map.mp hkv
    by_cases hc : (orig.1 == k) = true
    · rw [if_pos hc] at heq
      rw [← heq]
      exact hk
    · rw [if_neg hc] at heq
      rw [← heq]
      exact h orig horig
  · rcases List.mem_append.mp hkv with h1 | h2
    · exact h kv h1
    · simp at h2
      rw [h2]
      exact hk

theorem parseFileStep_keys (props : List (Str × Str)) (l : Str)
    (h : ∀ kv ∈ props, kv.1 ≠ []) : ∀ kv ∈ parseFileStep props l, kv.1 ≠ [] := by
  intro kv hkv
  unfold parseFileStep at hkv
  simp only at hkv
  split at hkv
  · exact h kv hkv
  · split at hkv
    · exact h kv hkv
    · split at hkv
      · exact h kv hkv
      · split at hkv
        · exact recordSet_keys _ _ _ h (by assumption) kv hkv
        · exact h kv hkv

/-- C10.  A line whose first separator sits at position 0 after trimming
(empty key) produces no parsed entry in either parser — it is dropped
exactly like a line with no separator — so every parsed entry carries a
non-empty key. -/
theorem c10_empty_key_dropped :
    (∀ content : Str, ∀ e ∈ parsePropertiesFileWithDescriptions content, e.key ≠ [])
    ∧ (∀ content : Str, ∀ kv ∈ parsePropertiesFile content, kv.1 ≠ [])
    ∧ parsePropertiesFileWithDescriptions "=value\n".data = []
    ∧ parsePropertiesFile "=value\n".data = []
    ∧ parsePropertiesFileWithDescriptions "value without separator\n".data = [] := by
  refine ⟨?_, ?_, by decide, by decide, by decide⟩
  · intro content e he
    obtain ⟨i, _, hsome⟩ := List.mem_filterMap.mp he
    exact lineEntry_key_ne _ _ _ _ hsome
  · intro content kv hkv
    have main : ∀ (lines : List Str) (init : List (Str × Str)),
        (∀ kv ∈ init, kv.1 ≠ []) → ∀ kv ∈ lines.foldl parseFileStep init, kv.1 ≠ [] := by
      intro lines
      induction lines with
      | nil => intro init h kv hkv; exact h kv hkv
      | cons l ls ih =>
          intro init h kv hkv
          exact ih (parseFileStep init l) (parseFileStep_keys init l h) kv hkv
    exact main (splitNl content) [] (by simp) kv hkv

/-- C10 witness: a concrete parse with one entry, whose key is non-empty. -/
theorem c10_empty_key_dropped_witness :
    (⟨"k".data, "v".data, [], 1⟩ : PEntry) ∈
        parsePropertiesFileWithDescriptions "k=v".data
    ∧ (⟨"k".data, "v".data, [], 1⟩ : PEntry).key ≠ []
    ∧ ("k".data, "v".data) ∈ parsePropertiesFile "k=v".data
    ∧ ("k".data, "v".data).1 ≠ [] := by
  refine ⟨by decide, ?_, by decide, ?_⟩
  · exact c10_empty_key_dropped.1 "k=v".data _ (by decide)
  · exact c10_empty_key_dropped.2.1 "k=v".data _ (by decide)

theorem entryAt_desc (lines : List Str) (i : Nat) (e : PEntry)
    (h : entryAt lines i = some e) : e.description = descriptionAt lines i :=
  lineEntry_desc _ _ _ _ h

theorem scanBackIdx_eq_none (L : List Str) (i : Nat)
    (hblank : ∀ k, k < i → trimStr (L.getD k []) = []) :
    scanBackIdx L i = none := by
  induction i with
  | zero => rfl
  | succ m ih =>
      rw [scanBackIdx, if_pos (hblank m (Nat.lt_succ_self m))]
      exact ih (fun k hk => hblank k (by omega))

/-- C9.  A parsed entry's description is attached exactly from the nearest
preceding non-blank line: when that line is a comment the description is its
text (and indeed no property line can sit between the two), when it is not a
comment — or when no non-blank line precedes — the description is empty; and
the concrete scenario input parses as specified. -/
theorem c9_description_attachment :
    (∀ (lines : List Str) (i : Nat) (e : PEntry) (j : Nat),
      entryAt lines i = some e →
      j < i →
      trimStr (lines.getD j []) ≠ [] →
      (∀ k, j < k → k < i → trimStr (lines.getD k []) = []) →
      ((isComment (trimStr (lines.getD j [])) = true →
          hasPropBetween lines j i = false
          ∧ e.description = trimStr ((trimStr (lines.getD j [])).drop 1))
       ∧ (isComment (trimStr (lines.getD j [])) = false → e.description = [])))
    ∧ (∀ (lines : List Str) (i : Nat) (e : PEntry),
      entryAt lines i = some e →
      (∀ k, k < i → trimStr (lines.getD k []) = []) →
      e.description = [])
    ∧ parsePropertiesFileWithDescriptions "# Database URL\ndb.url=jdbc:prod\n".data
        = [⟨"db.url".data, "jdbc:prod".data, "Database URL".data, 2⟩] := by
  refine ⟨?_, ?_, by decide⟩
  · intro lines i e j he hj hnb hblank
    have hscan := scanBackIdx_eq_some lines i j hj hnb hblank
    have hprop := hasPropBetween_false_of_blank lines j i hblank
    have hdesc := entryAt_desc lines i e he
    rw [descriptionAt, hscan] at hdesc
    have hdesc2 : e.description
        = if isComment (trimStr (lines.getD j [])) = true then
            (if hasPropBetween lines j i = true then []
             else trimStr ((trimStr (lines.getD j [])).drop 1))
          else [] := hdesc
    constructor
    · intro hc
      refine ⟨hprop, ?_⟩
      rw [hdesc2, if_pos hc, if_neg (by rw [hprop]; simp)]
    · intro hc
      rw [hdesc2, if_neg (by rw [hc]; simp)]
  · intro lines i e he hblank
    have hscan := scanBackIdx_eq_none lines i hblank
    have hdesc := entryAt_desc lines i e he
    rw [descriptionAt, hscan] at hdesc
    exact hdesc

/-! ### C3: the serialize / parse round trip -/

/-- A property whose textual parts survive the properties-file text format:
the key is non-empty, trim-stable, free of newlines, separator characters
and a comment head; the value is trim-stable and newline-free; the
description is present, non-empty, trim-stable and newline-free. -/
abbrev BenignProp (p : Property) : Prop :=
  p.key ≠ [] ∧ trimStr p.key = p.key ∧ '\n' ∉ p.key
    ∧ (∀ c ∈ p.key, (c == '=' || c == ':') = false)
    ∧ isComment p.key = false
    ∧ trimStr p.value = p.value ∧ '\n' ∉ p.value
    ∧ p.description ≠ none
    ∧ p.description.getD [] ≠ []
    ∧ trimStr (p.description.getD []) = p.description.getD []
    ∧ '\n' ∉ p.description.getD []

theorem take_len_append {α : Type _} (a b : List α) : (a ++ b).take a.length = a := by
  induction a with
  | nil => rfl
  | cons x xs ih => simp

theorem drop_succ_append {α : Type _} (a : List α) (c : α) (b : List α) :
    (a ++ c :: b).drop (a.length + 1) = b := by
  induction a with
  | nil => rfl
  | cons x xs ih => simp

theorem findSep_keyval (key value : Str)
    (hk : ∀ c ∈ key, (c == '=' || c == ':') = false) :
    findSep (key ++ '=' :: value) = some key.length := by
  induction key with
  | nil => rfl
  | cons c cs ih =>
      have hc := hk c (List.mem_cons_self c cs)
      have hih := ih (fun x hx => hk x (List.mem_cons_of_mem c hx))
      rw [findSep] at hih
      simp [findSep, List.cons_append, List.findIdx?_cons, hc, hih]

theorem insertByCmp_perm {α : Type _} (cmp : α → α → Int) (x : α) (l : List α) :
    List.Perm (insertByCmp cmp x l) (x :: l) := by
  induction l with
  | nil => exact List.Perm.refl _
  | cons y ys ih =>
      rw [insertByCmp]
      split
      · exact List.Perm.trans (List.Perm.cons y ih) (List.Perm.swap x y ys)
      · exact List.Perm.refl _

theorem sortByCmp_perm {α : Type _} (cmp : α → α → Int) (l : List α) :
    List.Perm (sortByCmp cmp l) l := by
  induction l with
  | nil => exact List.Perm.refl _
  | cons x xs ih =>
      rw [sortByCmp]
      exact List.Perm.trans (insertByCmp_perm cmp x (sortByCmp cmp xs))
        (List.Perm.cons x ih)

/-- C9 witness: the scenario input, with the comment line as the nearest
preceding non-blank line of the property line. -/
theorem c9_description_attachment_witness :
    (let lines := splitNl "# Database URL\ndb.url=jdbc:prod\n".data
     let e : PEntry := ⟨"db.url".data, "jdbc:prod".data, "Database URL".data, 2⟩
     entryAt lines 1 = some e
     ∧ isComment (trimStr (lines.getD 0 [])) = true
     ∧ hasPropBetween lines 0 1 = false
     ∧ e.description = trimStr ((trimStr (lines.getD 0 [])).drop 1)) := by
  refine ⟨by decide, by decide, ?_, ?_⟩
  · exact ((c9_description_attachment.1 (splitNl "# Database URL\ndb.url=jdbc:prod\n".data) 1
      ⟨"db.url".data, "jdbc:prod".data, "Database URL".data, 2⟩ 0 (by decide) (by decide)
      (by decide) (fun k hk1 hk2 => by omega)).1 (by decide)).1
  · exact ((c9_description_attachment.1 (splitNl "# Database URL\ndb.url=jdbc:prod\n".data) 1
      ⟨"db.url".data, "jdbc:prod".data, "Database URL".data, 2⟩ 0 (by decide) (by decide)
      (by decide) (fun k hk1 hk2 => by omega)).1 (by decide)).2

theorem parseFoldAux_blank (rest : List Str) (prev : Option Str) (i : Nat) :
    parseFoldAux ([] :: rest) prev i = parseFoldAux rest prev (i + 1) := rfl

theorem parseFoldAux_hash (r : Str) (rest : List Str) (prev : Option Str) (i : Nat) :
    parseFoldAux (('#' :: r) :: rest) prev i
      = parseFoldAux rest (some (trimStr ('#' :: r))) (i + 1) := by
  obtain ⟨t, ht⟩ := trim_head_hash r
  rw [parseFoldAux, ht]
  have hle : lineEntry ('#' :: t) (descOfPrev prev) (i + 1) = none := by
    rw [lineEntry, if_neg (by simp),
      if_pos (show isComment ('#' :: t) = true from rfl)]
  rw [hle, if_neg (by simp)]
  simp

theorem descOfPrev_comment (d : Str) (hdt : trimStr d = d) (hdne : d ≠ []) :
    descOfPrev (some ('#' :: ' ' :: d)) = d := by
  rw [descOfPrev, if_pos (show isComment ('#' :: ' ' :: d) = true from rfl)]
  exact trim_space_cons d hdt hdne

theorem parseFoldAux_entry (key value : Str) (rest : List Str) (prev : Option Str)
    (i : Nat) (hkne : key ≠ []) (hkt : trimStr key = key)
    (hksep : ∀ c ∈ key, (c == '=' || c == ':') = false)
    (hkc : isComment key = false) (hvt : trimStr value = value) :
    parseFoldAux ((key ++ '=' :: value) :: rest) prev i
      = ⟨key, value, descOfPrev prev, i + 1⟩
          :: parseFoldAux rest (some (key ++ '=' :: value)) (i + 1) := by
  have ht : trimStr (key ++ '=' :: value) = key ++ '=' :: value :=
    trim_keyval key value hkt hkne hvt
  have hne2 : key ++ '=' :: value ≠ ([] : Str) := by simp
  have hcom : isComment (key ++ '=' :: value) = false := by
    cases key with
    | nil => exact absurd rfl hkne
    | cons k ks => exact hkc
  have hsep : findSep (key ++ '=' :: value) = some key.length :=
    findSep_keyval key value hksep
  have htake : (key ++ '=' :: value).take key.length = key :=
    take_len_append key ('=' :: value)
  have hdrop : (key ++ '=' :: value).drop (key.length + 1) = value :=
    drop_succ_append key '=' value
  have hle : lineEntry (key ++ '=' :: value) (descOfPrev prev) (i + 1)
      = some ⟨key, value, descOfPrev prev, i + 1⟩ := by
    rw [lineEntry, if_neg hne2, if_neg (by rw [hcom]; simp), hsep]
    simp only [htake, hdrop, hkt, hvt]
    rw [if_neg hkne]
  rw [parseFoldAux, ht, hle, if_neg hne2]
  simp

theorem bodyLines_mem (props : List Property) : ∀ (lastFO : Int) (l : Str),
    l ∈ bodyLines lastFO props →
      l = [] ∨ ∃ p ∈ props,
        l = "# ".data ++ p.description.getD [] ∨ l = p.key ++ '=' :: p.value := by
  induction props with
  | nil =>
      intro lastFO l hl
      rw [bodyLines] at hl
      simp at hl
  | cons p rest ih =>
      intro lastFO l hl
      rw [bodyLines] at hl
      simp only [List.mem_append, List.mem_singleton] at hl
      rcases hl with ((((hsep | hdm) | hkm) | hbm) | hrec)
      · left
        rcases hfo : p.fileOrder with _ | fo
        · rw [hfo] at hsep
          simp at hsep
        · rw [hfo] at hsep
          simp only at hsep
          split at hsep
          · simpa using hsep
          · simp at hsep
      · rcases hd : p.description with _ | d
        · rw [hd] at hdm
          simp at hdm
        · rw [hd] at hdm
          simp only at hdm
          split at hdm
          · simp at hdm
          · right
            refine ⟨p, List.mem_cons_self p rest, Or.inl ?_⟩
            rw [hd]
            simpa using hdm
      · right
        exact ⟨p, List.mem_cons_self p rest, Or.inr hkm⟩
      · exact Or.inl hbm
      · rcases ih _ l hrec with hnil | ⟨q, hq, hcase⟩
        · exact Or.inl hnil
        · exact Or.inr ⟨q, List.mem_cons_of_mem p hq, hcase⟩

theorem bodyLines_no_nl (props : List Property) (h : ∀ p ∈ props, BenignProp p)
    (lastFO : Int) (l : Str) (hl : l ∈ bodyLines lastFO props) : '\n' ∉ l := by
  rcases bodyLines_mem props lastFO l hl with rfl | ⟨p, hp, rfl | rfl⟩
  · simp
  · obtain ⟨_, _, _, _, _, _, _, _, _, _, hdnl⟩ := h p hp
    intro hm
    rcases List.mem_append.mp hm with hm | hm
    · exact absurd hm (by decide)
    · exact hdnl hm
  · obtain ⟨_, _, hknl, _, _, _, hvnl, _⟩ := h p hp
    intro hm
    rcases List.mem_append.mp hm with hm | hm
    · exact hknl hm
    · rcases List.mem_cons.mp hm with heq | hm
      · exact absurd heq (by decide)
      · exact hvnl hm

theorem serializeLines_no_nl (ts : Str) (props : List Property) (hts : '\n' ∉ ts)
    (h : ∀ p ∈ sortByCmp sortCmp props, BenignProp p) :
    ∀ l ∈ serializeLines ts props, '\n' ∉ l := by
  intro l hl
  rw [serializeLines] at hl
  rcases List.mem_append.mp hl with hh | hb
  · rcases List.mem_cons.mp hh with rfl | hh
    · intro hm
      rcases List.mem_append.mp hm with hm | hm
      · exact absurd hm (by decide)
      · exact hts hm
    rcases List.mem_cons.mp hh with rfl | hh
    · decide
    rcases List.mem_cons.mp hh with rfl | hh
    · simp
    · simp at hh
  · exact bodyLines_no_nl _ h _ l hb

theorem bodyLines_parse (props : List Property) :
    (∀ p ∈ props, BenignProp p) → ∀ (lastFO : Int) (prev : Option Str) (i : Nat),
    (parseFoldAux (bodyLines lastFO props) prev i).map
        (fun e => (e.key, e.value, e.description))
      = props.map (fun p => (p.key, p.value, p.description.getD [])) := by
  induction props with
  | nil => intro _ lastFO prev i; rfl
  | cons p rest ih =>
      intro h lastFO prev i
      obtain ⟨hkne, hkt, hknl, hksep, hkc, hvt, hvnl, hdn, hdne, hdt, hdnl⟩ :=
        h p (List.mem_cons_self p rest)
      have hrest : ∀ q ∈ rest, BenignProp q :=
        fun q hq => h q (List.mem_cons_of_mem p hq)
      cases hd : p.description with
      | none => exact absurd hd hdn
      | some d =>
          have hdne2 : d ≠ [] := by rw [hd] at hdne; simpa using hdne
          have hdt2 : trimStr d = d := by rw [hd] at hdt; simpa using hdt
          have hdesc : descOfPrev (some (trimStr ('#' :: ' ' :: d))) = d := by
            rw [trim_hashline d hdt2 hdne2]
            exact descOfPrev_comment d hdt2 hdne2
          have hchunk : ∀ (prev2 : Option Str) (i2 : Nat) (newLast : Int),
              (parseFoldAux (('#' :: ' ' :: d) :: (p.key ++ '=' :: p.value)
                  :: [] :: bodyLines newLast rest) prev2 i2).map
                  (fun e => (e.key, e.value, e.description))
                = (p.key, p.value, d)
                    :: rest.map (fun q => (q.key, q.value, q.description.getD [])) := by
            intro prev2 i2 newLast
            rw [parseFoldAux_hash,
              parseFoldAux_entry p.key p.value _ _ _ hkne hkt hksep hkc hvt,
              parseFoldAux_blank, List.map_cons, hdesc, ih hrest newLast _ _]
          rw [bodyLines, List.map_cons, hd]
          simp only [Option.getD_some]
          have he3 : ("# ".data : Str) ++ d = '#' :: ' ' :: d := rfl
          rcases hfo : p.fileOrder with _ | fo
          · simp only [if_neg hdne2, he3, List.nil_append, List.singleton_append,
              List.cons_append]
            exact hchunk prev i lastFO
          · simp only [if_neg hdne2, he3, List.nil_append, List.singleton_append,
              List.cons_append]
            by_cases hcond : (fo : Int) ≠ lastFO ∧ lastFO ≠ -1
            · rw [if_pos hcond]
              simp only [List.cons_append, List.singleton_append, List.nil_append]
              rw [parseFoldAux_blank]
              exact hchunk prev (i + 1) fo
            · rw [if_neg hcond]
              simp only [List.nil_append]
              exact hchunk prev i fo

/-- A property whose serialized block loses its (absent) description: the
parser instead picks up the fixed file-header comment. -/
def c3BadProp : Property :=
  ⟨"1".data, "dev".data, "k".data, "v".data, none, "c".data, 0, none, none, none⟩

/-- C3 counterexample.  Serializing a property whose description is absent
and parsing the text back does not return the property's (key, value,
description) triple: the parser attaches the serializer's fixed
`# Environment Properties` header comment as the description, so the two
triple sets are disjoint, not equal. -/
theorem c3_header_comment_leaks :
    (parsePropertiesFileWithDescriptions
        (generatePropertiesFileContent [] [c3BadProp])).map
        (fun e => (e.key, e.value, e.description))
      = [("k".data, "v".data, "Environment Properties".data)]
    ∧ (parsePropertiesFileWithDescriptions
        (generatePropertiesFileContent [] [c3BadProp])).map
        (fun e => (e.key, e.value, e.description))
      ≠ [c3BadProp].map (fun p => (p.key, p.value, p.description.getD []))
    ∧ ∀ x ∈ (parsePropertiesFileWithDescriptions
        (generatePropertiesFileContent [] [c3BadProp])).map
        (fun e => (e.key, e.value, e.description)),
        x ∉ [c3BadProp].map (fun p => (p.key, p.value, p.description.getD [])) :=
  ⟨by decide, by decide, by decide⟩

/-- C3 (amended).  For every timestamp free of newlines and every list of
benign properties — non-empty trim-stable keys without separators, newlines
or a comment head; trim-stable newline-free values; present, non-empty,
trim-stable, newline-free descriptions — serializing to properties-file
text and parsing back yields exactly the input's (key, value, description)
triples up to order. -/
theorem c3_roundtrip_amended (ts : Str) (props : List Property)
    (hts : '\n' ∉ ts) (h : ∀ p ∈ props, BenignProp p) :
    List.Perm
      ((parsePropertiesFileWithDescriptions
          (generatePropertiesFileContent ts props)).map
        (fun e => (e.key, e.value, e.description)))
      (props.map (fun p => (p.key, p.value, p.description.getD []))) := by
  have hperm := sortByCmp_perm sortCmp props
  have hsorted : ∀ p ∈ sortByCmp sortCmp props, BenignProp p :=
    fun p hp => h p (hperm.subset hp)
  have hnl := serializeLines_no_nl ts props hts hsorted
  have hne : serializeLines ts props ≠ [] := by
    rw [serializeLines]
    simp
  rw [parsePropertiesFileWithDescriptions, generatePropertiesFileContent,
    splitNl_joinNl _ hne hnl, parseLinesIdx_eq_fold, serializeLines]
  have e1 : ("# Generated on ".data : Str) ++ ts
      = '#' :: (" Generated on ".data ++ ts) := rfl
  have e2 : ("# Environment Properties".data : Str)
      = '#' :: " Environment Properties".data := rfl
  rw [e1, e2]
  simp only [List.cons_append, List.nil_append]
  rw [parseFoldAux_hash, parseFoldAux_hash, parseFoldAux_blank,
    bodyLines_parse (sortByCmp sortCmp props) hsorted]
  exact hperm.map _

/-- Two benign properties exercising the amended round trip. -/
def c3SampleProps : List Property :=
  [⟨"1".data, "dev".data, "a".data, "1".data, some "first".data, "c".data, 0,
      none, none, none⟩,
   ⟨"2".data, "dev".data, "b".data, "2".data, some "second".data, "c".data, 0,
      none, none, none⟩]

/-- C3 witness: the amended round trip at a concrete timestamp and two
concrete benign properties. -/
theorem c3_roundtrip_amended_witness :
    ('\n' ∉ ("2024-01-01".data : Str))
    ∧ (∀ p ∈ c3SampleProps, BenignProp p)
    ∧ List.Perm
        ((parsePropertiesFileWithDescriptions
            (generatePropertiesFileContent "2024-01-01".data c3SampleProps)).map
          (fun e => (e.key, e.value, e.description)))
        (c3SampleProps.map (fun p => (p.key, p.value, p.description.getD []))) :=
  ⟨by decide, by decide,
    c3_roundtrip_amended "2024-01-01".data c3SampleProps (by decide) (by decide)⟩

/-! ### C5 / C7: the snapshot import of `DuckDBService`

`importFromParquet` materialises the uploaded blob into `imported_data`
(a failure there throws before any table is touched), detects the combined
layout by the presence of the `table_type` column, and then runs the
`DELETE` / `INSERT` statements of `importCombinedData` or
`importLegacyProperties`.  Each `conn.query` call is its own auto-committed
statement: a failed `INSERT` rolls back only itself, never the preceding
`DELETE`s.  Timestamp strings are carried verbatim (`strptime` is modelled
as the identity on the stored text, `CURRENT_TIMESTAMP` as the `now`
parameter); an insert fails when a `NOT NULL` column of the `properties`
or `audit_logs` schema is null or a `PRIMARY KEY` id repeats. -/

/-- A row of the `properties` table (`id` primary key; `environment`, `key`
`NOT NULL`; remaining columns nullable). -/
structure PropRow where
  id : Str
  environment : Str
  key : Str
  value : Option Str := none
  description : Option Str := none
  component : Option Str := none
  lastModified : Option Str := none
  environmentOrder : Option Int := none
  fileOrder : Option Int := none
  lineOrder : Option Int := none
deriving Repr, DecidableEq

/-- A row of the `audit_logs` table (all columns `NOT NULL` except the four
value fields and `user_id`). -/
structure AuditRow where
  id : Str
  timestamp : Str
  action : Str
  tableName : Str
  recordId : Str
  propertyKey : Str
  environment : Str
  component : Str
  oldValue : Option Str := none
  newValue : Option Str := none
  oldDescription : Option Str := none
  newDescription : Option Str := none
  changeDetails : Str
  userId : Option Str := none
  sessionId : Str
deriving Repr, DecidableEq

/-- One row of `imported_data`: every column the import statements read,
all nullable, as parquet imposes no constraints. -/
structure ImportRow where
  tableType : Option Str := none
  id : Option Str := none
  environment : Option Str := none
  key : Option Str := none
  value : Option Str := none
  description : Option Str := none
  component : Option Str := none
  lastModified : Option Str := none
  environmentOrder : Option Int := none
  fileOrder : Option Int := none
  lineOrder : Option Int := none
  timestamp : Option Str := none
  action : Option Str := none
  recordId : Option Str := none
  propertyKey : Option Str := none
  oldValue : Option Str := none
  newValue : Option Str := none
  oldDescription : Option Str := none
  newDescription : Option Str := none
  changeDetails : Option Str := none
  userId : Option Str := none
  sessionId : Option Str := none
deriving Repr, DecidableEq

/-- The readable content of an uploaded blob: whether `imported_data` has a
`table_type` column, and its rows. -/
structure ImportedTable where
  hasTableType : Bool
  rows : List ImportRow
deriving Repr, DecidableEq

/-- The two tables the import statements touch. -/
structure DbState where
  properties : List PropRow
  audits : List AuditRow
deriving Repr, DecidableEq

/-- Primary-key check over the ids of a batch `INSERT` into an emptied
table. -/
def nodupIds : List Str → Bool
  | [] => true
  | x :: xs => !(xs.contains x) && nodupIds xs

/-- The `SELECT` row of the `INSERT INTO properties`: `NOT NULL` columns
must be present, `last_modified` falls back to `CURRENT_TIMESTAMP`. -/
def propRowOfImport (now : Str) (r : ImportRow) : Option PropRow :=
  match r.id, r.environment, r.key with
  | some i, some env, some k =>
      some ⟨i, env, k, r.value, r.description, r.component,
        some (r.lastModified.getD now), r.environmentOrder, r.fileOrder,
        r.lineOrder⟩
  | _, _, _ => none

/-- The `SELECT` row of the `INSERT INTO audit_logs`: `NOT NULL` columns
must be present, `timestamp` falls back to `CURRENT_TIMESTAMP`,
`table_name` is the literal `'properties'`. -/
def auditRowOfImport (now : Str) (r : ImportRow) : Option AuditRow :=
  match r.id, r.action, r.recordId, r.propertyKey, r.environment, r.component,
      r.changeDetails, r.sessionId with
  | some i, some act, some rid, some pk, some env, some comp, some cd,
      some sid =>
      some ⟨i, r.timestamp.getD now, act, "properties".data, rid, pk, env,
        comp, r.oldValue, r.newValue, r.oldDescription, r.newDescription, cd,
        r.userId, sid⟩
  | _, _, _, _, _, _, _, _ => none

/-- The batch `INSERT INTO properties`: `none` is the statement failing on
a `NOT NULL` or `PRIMARY KEY` violation. -/
def insertProps (now : Str) (rows : List ImportRow) : Option (List PropRow) :=
  let conv := rows.map (propRowOfImport now)
  if conv.all Option.isSome then
    let newRows := conv.filterMap id
    if nodupIds (newRows.map PropRow.id) then some newRows else none
  else none

/-- The batch `INSERT INTO audit_logs`; `none` is the statement failing. -/
def insertAudits (now : Str) (rows : List ImportRow) : Option (List AuditRow) :=
  let conv := rows.map (auditRowOfImport now)
  if conv.all Option.isSome then
    let newRows := conv.filterMap id
    if nodupIds (newRows.map AuditRow.id) then some newRows else none
  else none

/-- `DuckDBService.importCombinedData`: `DELETE FROM properties`,
`DELETE FROM audit_logs` (each committed on its own), then the two filtered
inserts; the `Bool` is the error escaping to the caller. -/
def importCombinedData (now : Str) (rows : List ImportRow)
    (_st : DbState) : DbState × Bool :=
  match insertProps now
      (rows.filter (fun r => r.tableType == some "properties".data)) with
  | none => (⟨[], []⟩, true)
  | some ps =>
      match insertAudits now
          (rows.filter (fun r => r.tableType == some "audit_logs".data)) with
      | none => (⟨ps, []⟩, true)
      | some as2 => (⟨ps, as2⟩, false)

/-- `DuckDBService.importLegacyProperties`: `DELETE FROM properties` then
one insert of every imported row; `audit_logs` is never touched. -/
def importLegacyProperties (now : Str) (rows : List ImportRow)
    (st : DbState) : DbState × Bool :=
  match insertProps now rows with
  | none => (⟨[], st.audits⟩, true)
  | some ps => (⟨ps, st.audits⟩, false)

/-- `DuckDBService.importFromParquet`: an unreadable blob throws before any
table statement runs; otherwise the `table_type` column selects the
combined or the legacy path. -/
def importFromParquet (now : Str) (blob : Option ImportedTable)
    (st : DbState) : DbState × Bool :=
  match blob with
  | none => (st, true)
  | some t =>
      if t.hasTableType then importCombinedData now t.rows st
      else importLegacyProperties now t.rows st

/-- A prior database state with one property row and one audit row. -/
def sampleDb : DbState :=
  ⟨[⟨"p1".data, "dev".data, "k".data, none, none, none, none, none, none,
      none⟩],
   [⟨"a1".data, "t1".data, "CREATE".data, "properties".data, "p1".data,
      "k".data, "dev".data, "c".data, none, none, none, none, "cd".data,
      none, "s1".data⟩]⟩

/-- A valid imported property row of the combined layout. -/
def goodPropImport : ImportRow :=
  { tableType := some "properties".data
    id := some "p2".data
    environment := some "dev".data
    key := some "k2".data }

/-- An imported audit row missing its `NOT NULL` `action` column. -/
def badAuditImport : ImportRow :=
  { tableType := some "audit_logs".data
    id := some "a2".data }

/-- An imported property row missing its `NOT NULL` `id` column. -/
def badPropImport : ImportRow :=
  { tableType := some "properties".data
    environment := some "dev".data
    key := some "k2".data }

/-- C5 counterexample.  A combined-layout blob whose two property rows
share a primary key makes the import fail row validation, yet the prior,
non-empty contents of both tables are not retained: the already-committed
`DELETE` statements leave both tables empty. -/
theorem c5_not_atomic :
    (importFromParquet "now".data
        (some ⟨true, [goodPropImport, goodPropImport]⟩) sampleDb).2 = true
    ∧ (importFromParquet "now".data
        (some ⟨true, [goodPropImport, goodPropImport]⟩) sampleDb).1
      = ⟨[], []⟩
    ∧ sampleDb.properties ≠ [] ∧ sampleDb.audits ≠ [] :=
  ⟨rfl, rfl, by decide, by decide⟩

/-- C5 (amended).  Import is atomic only with respect to blobs that cannot
be read at all: then the state is unchanged and an error is reported.  Once
row validation fails the already-committed deletes survive: a failing
combined property insert leaves both tables empty; a failing combined
audit insert leaves the freshly inserted properties and an empty audit
table; a failing legacy insert leaves the property table empty and only
the audit table intact. -/
theorem c5_import_failure_shapes (now : Str) (st : DbState)
    (rows : List ImportRow) :
    importFromParquet now none st = (st, true)
    ∧ (insertProps now
          (rows.filter (fun r => r.tableType == some "properties".data))
        = none →
        importFromParquet now (some ⟨true, rows⟩) st = (⟨[], []⟩, true))
    ∧ (∀ ps, insertProps now
          (rows.filter (fun r => r.tableType == some "properties".data))
        = some ps →
        insertAudits now
          (rows.filter (fun r => r.tableType == some "audit_logs".data))
        = none →
        importFromParquet now (some ⟨true, rows⟩) st = (⟨ps, []⟩, true))
    ∧ (insertProps now rows = none →
        importFromParquet now (some ⟨false, rows⟩) st
          = (⟨[], st.audits⟩, true)) := by
  refine ⟨rfl, ?_, ?_, ?_⟩
  · intro hp
    simp [importFromParquet, importCombinedData, hp]
  · intro ps hp ha
    simp [importFromParquet, importCombinedData, hp, ha]
  · intro hp
    simp [importFromParquet, importLegacyProperties, hp]

/-- C5 witness: each failure shape of the amended statement at concrete
inputs — an unreadable blob, a duplicate-key combined property insert, a
combined import whose audit rows are invalid, and an invalid
legacy import. -/
theorem c5_import_failure_shapes_witness :
    importFromParquet "now".data none sampleDb = (sampleDb, true)
    ∧ insertProps "now".data
        ([badPropImport].filter
          (fun r => r.tableType == some "properties".data)) = none
    ∧ importFromParquet "now".data (some ⟨true, [badPropImport]⟩) sampleDb
      = (⟨[], []⟩, true)
    ∧ insertProps "now".data
        ([goodPropImport, badAuditImport].filter
          (fun r => r.tableType == some "properties".data))
      = some [⟨"p2".data, "dev".data, "k2".data, none, none, none,
          some "now".data, none, none, none⟩]
    ∧ insertAudits "now".data
        ([goodPropImport, badAuditImport].filter
          (fun r => r.tableType == some "audit_logs".data)) = none
    ∧ importFromParquet "now".data
        (some ⟨true, [goodPropImport, badAuditImport]⟩) sampleDb
      = (⟨[⟨"p2".data, "dev".data, "k2".data, none, none, none,
            some "now".data, none, none, none⟩], []⟩, true)
    ∧ insertProps "now".data [badPropImport] = none
    ∧ importFromParquet "now".data (some ⟨false, [badPropImport]⟩) sampleDb
      = (⟨[], sampleDb.audits⟩, true) :=
  ⟨(c5_import_failure_shapes "now".data sampleDb [badPropImport]).1,
   by decide,
   (c5_import_failure_shapes "now".data sampleDb [badPropImport]).2.1
     (by decide),
   by decide,
   by decide,
   (c5_import_failure_shapes "now".data sampleDb
       [goodPropImport, badAuditImport]).2.2.1 _ (by decide) (by decide),
   by decide,
   (c5_import_failure_shapes "now".data sampleDb [badPropImport]).2.2.2
     (by decide)⟩

/-- C7.  A legacy-layout blob (no `table_type` column) never changes the
audit-log table, and its result is the same over any two prior states that
agree on the audit table — the property table is replaced outright; on a
successful legacy insert the new property rows and the untouched audit
rows are exactly as inserted.  A combined-layout blob's result is
independent of the entire prior state — both tables are replaced — and on
success both tables hold exactly the inserted rows. -/
theorem c7_import_table_frame :
    (∀ (now : Str) (rows : List ImportRow) (st : DbState),
        (importFromParquet now (some ⟨false, rows⟩) st).1.audits = st.audits)
    ∧ (∀ (now : Str) (rows : List ImportRow) (st st' : DbState),
        st.audits = st'.audits →
        importFromParquet now (some ⟨false, rows⟩) st
          = importFromParquet now (some ⟨false, rows⟩) st')
    ∧ (∀ (now : Str) (rows : List ImportRow) (st : DbState) (ps : List PropRow),
        insertProps now rows = some ps →
        importFromParquet now (some ⟨false, rows⟩) st
          = (⟨ps, st.audits⟩, false))
    ∧ (∀ (now : Str) (rows : List ImportRow) (st st' : DbState),
        importFromParquet now (some ⟨true, rows⟩) st
          = importFromParquet now (some ⟨true, rows⟩) st')
    ∧ (∀ (now : Str) (rows : List ImportRow) (st : DbState)
        (ps : List PropRow) (as2 : List AuditRow),
        insertProps now
          (rows.filter (fun r => r.tableType == some "properties".data))
          = some ps →
        insertAudits now
          (rows.filter (fun r => r.tableType == some "audit_logs".data))
          = some as2 →
        importFromParquet now (some ⟨true, rows⟩) st = (⟨ps, as2⟩, false)) := by
  refine ⟨?_, ?_, ?_, ?_, ?_⟩
  · intro now rows st
    cases h : insertProps now rows with
    | none => simp [importFromParquet, importLegacyProperties, h]
    | some ps => simp [importFromParquet, importLegacyProperties, h]
  · intro now rows st st' hau
    cases h : insertProps now rows with
    | none => simp [importFromParquet, importLegacyProperties, h, hau]
    | some ps => simp [importFromParquet, importLegacyProperties, h, hau]
  · intro now rows st ps hp
    simp [importFromParquet, importLegacyProperties, hp]
  · intro now rows st st'
    rfl
  · intro now rows st ps as2 hp ha
    simp [importFromParquet, importCombinedData, hp, ha]

/-- C7 witness: a concrete legacy import over two states sharing the audit
table, a successful legacy insert, and a successful combined import. -/
theorem c7_import_table_frame_witness :
    (importFromParquet "now".data (some ⟨false, [goodPropImport]⟩)
        sampleDb).1.audits = sampleDb.audits
    ∧ (sampleDb.audits = (⟨[], sampleDb.audits⟩ : DbState).audits
        ∧ importFromParquet "now".data (some ⟨false, [goodPropImport]⟩)
            sampleDb
          = importFromParquet "now".data (some ⟨false, [goodPropImport]⟩)
            ⟨[], sampleDb.audits⟩)
    ∧ (insertProps "now".data [goodPropImport]
        = some [⟨"p2".data, "dev".data, "k2".data, none, none, none,
            some "now".data, none, none, none⟩]
        ∧ importFromParquet "now".data (some ⟨false, [goodPropImport]⟩)
            sampleDb
          = (⟨[⟨"p2".data, "dev".data, "k2".data, none, none, none,
                some "now".data, none, none, none⟩], sampleDb.audits⟩, false))
    ∧ (insertProps "now".data
          ([goodPropImport].filter
            (fun r => r.tableType == some "properties".data))
        = some [⟨"p2".data, "dev".data, "k2".data, none, none, none,
            some "now".data, none, none, none⟩]
        ∧ insertAudits "now".data
          ([goodPropImport].filter
            (fun r => r.tableType == some "audit_logs".data)) = some []
        ∧ importFromParquet "now".data (some ⟨true, [goodPropImport]⟩)
            sampleDb
          = (⟨[⟨"p2".data, "dev".data, "k2".data, none, none, none,
                some "now".data, none, none, none⟩], []⟩, false)) :=
  ⟨c7_import_table_frame.1 "now".data [goodPropImport] sampleDb,
   ⟨rfl, c7_import_table_frame.2.1 "now".data [goodPropImport] sampleDb
      ⟨[], sampleDb.audits⟩ rfl⟩,
   ⟨by decide, c7_import_table_frame.2.2.1 "now".data [goodPropImport]
      sampleDb _ (by decide)⟩,
   ⟨by decide, by decide, c7_import_table_frame.2.2.2.2 "now".data
      [goodPropImport] sampleDb _ _ (by decide) (by decide)⟩⟩

end EnvBuilder
